import Mathlib

/-
Verification of the cart-normalization / payment-relay backend.

The repository is a small Express service in several historical revisions:
  * `src/unnamed/part_001` — the latest revision: `stripTags`/`stripLabel`,
    `normalizeCart`, the `"Item {i}: {name} (x{q}) @ R{p}"` metadata encoding,
    the signature-checked webhook with its string-parsing fallback decoder.
  * `src/unnamed/part_000` and the middle revision of `src/index.js` — the
    `describeItem` with the `isPlaceholder` guard and the unknown-field
    fallback.
  * the last revision inside `src/index.js` — the simplified `describeItem`
    without the placeholder guard, and a webhook whose catch block sends 500.

Modelling conventions (shallow embedding):
  * JS strings are `List Char` (`Str`).
  * JS numbers are exact decimal numbers `JNum` (mantissa/decimal-exponent,
    kept in canonical form by all operations); `JNum.val` maps them to `ℚ`.
    This is the standard exact-decimal abstraction of the float values that
    actually flow through this code (all of them are small decimals).
    NaN is represented by `Option.none` at the coercion boundaries.
  * JS objects are association lists `JObj` with string keys and scalar
    values (`JVal`: null / string / number / boolean).  Nested objects and
    arrays inside cart-item fields are outside the scope of the claims
    settled here and are not modelled.
  * `Number(string)` is modelled for plain decimal literals (optional sign,
    digits, optional fraction); exotic forms (hex, exponent, Infinity)
    are mapped to NaN.  None of the claims depends on those forms.
  * The regular expressions used by the code are modelled by specialized
    matchers with JS leftmost-match semantics.
All recursive definitions are structural or fuel-based so that every
concrete run evaluates inside the kernel.
-/

/-! ## Strings -/

abbrev Str := List Char

def strOf (s : String) : Str := s.data

/- The whitespace class used for `trim` and `\s`. -/
def isWsChar (c : Char) : Bool := c = ' ' || c = '\t' || c = '\n' || c = '\r'

def trimL (s : Str) : Str := s.dropWhile isWsChar

def trimR (s : Str) : Str := (s.reverse.dropWhile isWsChar).reverse

def trim (s : Str) : Str := trimL (trimR s)

/- Boolean sublist-at-the-start test (JS `String.startsWith`). -/
def isPre : Str → Str → Bool
  | [], _ => true
  | _ :: _, [] => false
  | p :: ps, c :: cs => p == c && isPre ps cs

/- Case-insensitive (ASCII) variant: regex `^pat` with the `i` flag.
Returns the rest of the string after the matched part. -/
def dropPreCI : Str → Str → Option Str
  | [], s => some s
  | _ :: _, [] => none
  | p :: ps, c :: cs => if Char.toLower c = Char.toLower p then dropPreCI ps cs else none

/- Split at the first occurrence of a character, if any. -/
def splitAtChar (t : Char) : Str → Option (Str × Str)
  | [] => none
  | c :: rest =>
    if c = t then some ([], rest)
    else
      match splitAtChar t rest with
      | none => none
      | some (a, b) => some (c :: a, b)

theorem splitAtChar_length {t : Char} :
    ∀ {s a b : Str}, splitAtChar t s = some (a, b) → s.length = a.length + b.length + 1 := by
  intro s
  induction s with
  | nil => intro a b h; simp [splitAtChar] at h
  | cons c rest ih =>
    intro a b h
    by_cases hc : c = t
    · simp [splitAtChar, hc] at h
      simp [← h.1, ← h.2]
    · simp only [splitAtChar, hc, if_false] at h
      cases h2 : splitAtChar t rest with
      | none => rw [h2] at h; exact absurd h (by simp)
      | some ab =>
        obtain ⟨a', b'⟩ := ab
        rw [h2] at h
        simp at h
        have := ih h2
        simp [← h.1, ← h.2, this]
        omega

theorem splitAtChar_none {t : Char} :
    ∀ {s : Str}, splitAtChar t s = none → t ∉ s := by
  intro s
  induction s with
  | nil => intro _ h; exact List.not_mem_nil t h
  | cons c rest ih =>
    intro h hmem
    by_cases hc : c = t
    · simp [splitAtChar, hc] at h
    · simp only [splitAtChar, hc, if_false] at h
      cases h2 : splitAtChar t rest with
      | none =>
        rcases List.mem_cons.mp hmem with h3 | h3
        · exact hc h3.symm
        · exact ih h2 h3
      | some ab => obtain ⟨a', b'⟩ := ab; rw [h2] at h; exact absurd h (by simp)

theorem splitAtChar_some {t : Char} :
    ∀ {s a b : Str}, splitAtChar t s = some (a, b) →
      s = a ++ t :: b ∧ t ∉ a := by
  intro s
  induction s with
  | nil => intro a b h; simp [splitAtChar] at h
  | cons c rest ih =>
    intro a b h
    by_cases hc : c = t
    · subst hc
      simp [splitAtChar] at h
      obtain ⟨ha, hb⟩ := h
      subst ha
      subst hb
      simp
    · simp only [splitAtChar, hc, if_false] at h
      cases h2 : splitAtChar t rest with
      | none => rw [h2] at h; exact absurd h (by simp)
      | some ab =>
        obtain ⟨a', b'⟩ := ab
        rw [h2] at h
        simp at h
        obtain ⟨he, hnm⟩ := ih h2
        refine ⟨?_, ?_⟩
        · rw [← h.1, ← h.2, he]; simp
        · rw [← h.1]
          intro hmem
          rcases List.mem_cons.mp hmem with h3 | h3
          · exact hc h3.symm
          · exact hnm h3

/-! ## HTML-tag stripping (regex `/<[^>]+>/g`) -/

/- One pass of `String(s).replace(/<[^>]+>/g, "")`, fuel-recursive so that it
evaluates in the kernel.  A `<` starts a match iff some `>` follows with at
least one character in between; the regex scans left to right. -/
def stripTagsFuel : ℕ → Str → Str
  | 0, s => s
  | _ + 1, [] => []
  | fuel + 1, c :: rest =>
    if c = '<' then
      match splitAtChar '>' rest with
      | some (inner, tail) =>
        if inner = [] then c :: stripTagsFuel fuel rest
        else stripTagsFuel fuel tail
      | none => c :: stripTagsFuel fuel rest
    else c :: stripTagsFuel fuel rest

def stripTagsCore (s : Str) : Str := stripTagsFuel s.length s

/- Whether the string still contains a substring matched by `/<[^>]+>/`. -/
def hasTagFuel : ℕ → Str → Bool
  | 0, _ => false
  | _ + 1, [] => false
  | fuel + 1, c :: rest =>
    if c = '<' then
      match splitAtChar '>' rest with
      | some (inner, _) => if inner = [] then hasTagFuel fuel rest else true
      | none => hasTagFuel fuel rest
    else hasTagFuel fuel rest

def hasTag (s : Str) : Bool := hasTagFuel s.length s

theorem stripTagsFuel_fuel :
    ∀ fuel fuel' s, List.length s ≤ fuel → List.length s ≤ fuel' →
      stripTagsFuel fuel s = stripTagsFuel fuel' s := by
  intro fuel
  induction fuel with
  | zero =>
    intro fuel' s hs _
    have : s = [] := List.eq_nil_of_length_eq_zero (Nat.le_zero.mp hs)
    subst this
    cases fuel' <;> rfl
  | succ f ih =>
    intro fuel' s hs hs'
    cases s with
    | nil => cases fuel' <;> rfl
    | cons c rest =>
      cases fuel' with
      | zero => simp at hs'
      | succ f' =>
        simp only [stripTagsFuel]
        have hr : rest.length ≤ f := by simpa using hs
        have hr' : rest.length ≤ f' := by simpa using hs'
        by_cases hc : c = '<'
        · simp only [hc, if_true]
          cases h2 : splitAtChar '>' rest with
          | some ab =>
            obtain ⟨inner, tail⟩ := ab
            have hlen := splitAtChar_length h2
            have ht : tail.length ≤ f := by omega
            have ht' : tail.length ≤ f' := by omega
            by_cases hi : inner = [] <;> simp [hi, ih f' rest hr hr', ih f' tail ht ht']
          | none => simp [ih f' rest hr hr']
        · simp [hc, ih f' rest hr hr']

theorem hasTagFuel_fuel :
    ∀ fuel fuel' s, List.length s ≤ fuel → List.length s ≤ fuel' →
      hasTagFuel fuel s = hasTagFuel fuel' s := by
  intro fuel
  induction fuel with
  | zero =>
    intro fuel' s hs _
    have : s = [] := List.eq_nil_of_length_eq_zero (Nat.le_zero.mp hs)
    subst this
    cases fuel' <;> rfl
  | succ f ih =>
    intro fuel' s hs hs'
    cases s with
    | nil => cases fuel' <;> rfl
    | cons c rest =>
      cases fuel' with
      | zero => simp at hs'
      | succ f' =>
        simp only [hasTagFuel]
        have hr : rest.length ≤ f := by simpa using hs
        have hr' : rest.length ≤ f' := by simpa using hs'
        by_cases hc : c = '<'
        · simp only [hc, if_true]
          cases h2 : splitAtChar '>' rest with
          | some ab =>
            obtain ⟨inner, tail⟩ := ab
            by_cases hi : inner = [] <;> simp [hi, ih f' rest hr hr']
          | none => simp [ih f' rest hr hr']
        · simp [hc, ih f' rest hr hr']

theorem stripTagsCore_cons (c : Char) (rest : Str) :
    stripTagsCore (c :: rest) =
      (if c = '<' then
        match splitAtChar '>' rest with
        | some (inner, tail) =>
          if inner = [] then c :: stripTagsCore rest else stripTagsCore tail
        | none => c :: stripTagsCore rest
      else c :: stripTagsCore rest) := by
  show stripTagsFuel (rest.length + 1) (c :: rest) = _
  simp only [stripTagsFuel]
  by_cases hc : c = '<'
  · simp only [hc, if_true]
    cases h2 : splitAtChar '>' rest with
    | some ab =>
      obtain ⟨inner, tail⟩ := ab
      have hlen := splitAtChar_length h2
      have := stripTagsFuel_fuel rest.length tail.length tail (by omega) le_rfl
      by_cases hi : inner = [] <;> simp [hi, stripTagsCore, this]
    | none => simp [stripTagsCore]
  · simp [hc, stripTagsCore]

theorem hasTag_cons (c : Char) (rest : Str) :
    hasTag (c :: rest) =
      (if c = '<' then
        match splitAtChar '>' rest with
        | some (inner, _) => if inner = [] then hasTag rest else true
        | none => hasTag rest
      else hasTag rest) := by
  show hasTagFuel (rest.length + 1) (c :: rest) = _
  simp only [hasTagFuel]
  by_cases hc : c = '<'
  · simp only [hc, if_true]
    cases h2 : splitAtChar '>' rest with
    | some ab =>
      obtain ⟨inner, tail⟩ := ab
      by_cases hi : inner = [] <;> simp [hi, hasTag]
    | none => simp [hasTag]
  · simp [hc, hasTag]

theorem splitAtChar_eq_none {t : Char} :
    ∀ {s : Str}, t ∉ s → splitAtChar t s = none := by
  intro s
  induction s with
  | nil => intro _; rfl
  | cons c rest ih =>
    intro h
    have hc : c ≠ t := fun e => h (e ▸ List.mem_cons_self c rest)
    have hr : t ∉ rest := fun m => h (List.mem_cons_of_mem c m)
    simp [splitAtChar, fun e => hc (e : c = t), ih hr]

theorem splitAtChar_append {t : Char} :
    ∀ {a : Str} (b : Str), t ∉ a → splitAtChar t (a ++ t :: b) = some (a, b) := by
  intro a
  induction a with
  | nil => intro b _; simp [splitAtChar]
  | cons c a' ih =>
    intro b h
    have hc : c ≠ t := fun e => h (e ▸ List.mem_cons_self c a')
    have ha : t ∉ a' := fun m => h (List.mem_cons_of_mem c m)
    simp [splitAtChar, fun e => hc (e : c = t), ih b ha]

theorem stripTagsFuel_sublist : ∀ (fuel : ℕ) (s : Str), List.Sublist (stripTagsFuel fuel s) s := by
  intro fuel
  induction fuel with
  | zero => intro s; exact List.Sublist.refl s
  | succ f ih =>
    intro s
    cases s with
    | nil => exact List.Sublist.refl []
    | cons c rest =>
      simp only [stripTagsFuel]
      by_cases hc : c = '<'
      · subst hc
        simp only [if_true]
        cases h2 : splitAtChar '>' rest with
        | some ab =>
          obtain ⟨inner, tail⟩ := ab
          have hdec := (splitAtChar_some h2).1
          by_cases hi : inner = []
          · simpa [hi] using (ih rest).cons₂ '<'
          · simp only [hi, if_false]
            have h3 : List.Sublist tail rest := by
              rw [hdec]
              exact List.Sublist.trans (List.sublist_cons_self '>' tail)
                (List.sublist_append_right inner ('>' :: tail))
            exact ((ih tail).trans h3).cons '<'
        | none => exact (ih rest).cons₂ '<'
      · simp only [hc, if_false]
        exact (ih rest).cons₂ c

theorem stripTagsCore_sublist (s : Str) : List.Sublist (stripTagsCore s) s :=
  stripTagsFuel_sublist s.length s

/- The key sanitization fact: after one global pass of `/<[^>]+>/g`
removal, no substring matching `/<[^>]+>/` remains. -/
theorem hasTag_stripTagsCore : ∀ (n : ℕ) (s : Str), s.length ≤ n →
    hasTag (stripTagsCore s) = false := by
  intro n
  induction n with
  | zero =>
    intro s hs
    have : s = [] := List.eq_nil_of_length_eq_zero (Nat.le_zero.mp hs)
    subst this
    rfl
  | succ n ih =>
    intro s hs
    cases s with
    | nil => rfl
    | cons c rest =>
      have hr : rest.length ≤ n := by simpa using hs
      rw [stripTagsCore_cons]
      by_cases hc : c = '<'
      · simp only [hc, if_true]
        cases h2 : splitAtChar '>' rest with
        | some ab =>
          obtain ⟨inner, tail⟩ := ab
          obtain ⟨hdec, hnm⟩ := splitAtChar_some h2
          by_cases hi : inner = []
          · simp only [hi, if_true]
            subst hi
            simp only [List.nil_append] at hdec
            subst hdec
            rw [stripTagsCore_cons]
            simp only [if_neg (by decide : ¬('>' = '<'))]
            rw [hasTag_cons]
            simp only [if_true]
            have htail : tail.length ≤ n := by
              simp at hr
              omega
            rw [show splitAtChar '>' ('>' :: stripTagsCore tail) =
                  some ([], stripTagsCore tail) from by simp [splitAtChar]]
            simp only [if_true]
            rw [hasTag_cons]
            simp only [if_neg (by decide : ¬('>' = '<'))]
            exact ih tail htail
          · simp only [hi, if_false]
            have hlen := splitAtChar_length h2
            exact ih tail (by omega)
        | none =>
          have hng : '>' ∉ rest := splitAtChar_none h2
          rw [hasTag_cons]
          simp only [if_pos hc]
          have hng2 : '>' ∉ stripTagsCore rest :=
            fun m => hng ((stripTagsCore_sublist rest).subset m)
          rw [splitAtChar_eq_none hng2]
          exact ih rest hr
      · simp only [hc, if_false]
        rw [hasTag_cons]
        simp only [hc, if_false]
        exact ih rest hr

theorem hasTag_of_decomp :
    ∀ (a : Str) (inner b : Str), inner ≠ [] → '>' ∉ inner →
      hasTag (a ++ '<' :: (inner ++ '>' :: b)) = true := by
  intro a
  induction a with
  | nil =>
    intro inner b hne hnm
    rw [List.nil_append, hasTag_cons]
    simp only [if_true]
    rw [splitAtChar_append b hnm]
    simp [hne]
  | cons x a' ih =>
    intro inner b hne hnm
    rw [List.cons_append, hasTag_cons]
    by_cases hx : x = '<'
    · simp only [hx, if_true]
      cases h2 : splitAtChar '>' (a' ++ '<' :: (inner ++ '>' :: b)) with
      | some ab =>
        obtain ⟨i2, t2⟩ := ab
        by_cases hi : i2 = []
        · simp only [hi, if_true]
          exact ih inner b hne hnm
        · simp [hi]
      | none =>
        exfalso
        have : '>' ∈ a' ++ '<' :: (inner ++ '>' :: b) := by simp
        exact splitAtChar_none h2 this
    · simp only [hx, if_false]
      exact ih inner b hne hnm

theorem decomp_of_hasTag :
    ∀ (s : Str), hasTag s = true →
      ∃ a inner b, s = a ++ '<' :: (inner ++ '>' :: b) ∧ inner ≠ [] ∧ '>' ∉ inner := by
  intro s
  induction s with
  | nil => intro h; exact absurd h (by decide)
  | cons c rest ih =>
    intro h
    rw [hasTag_cons] at h
    by_cases hc : c = '<'
    · simp only [hc, if_true] at h
      cases h2 : splitAtChar '>' rest with
      | some ab =>
        obtain ⟨inner, tail⟩ := ab
        rw [h2] at h
        obtain ⟨hdec, hnm⟩ := splitAtChar_some h2
        by_cases hi : inner = []
        · simp only [hi, if_true] at h
          obtain ⟨a, i2, b, hs, hne, hnm2⟩ := ih h
          exact ⟨c :: a, i2, b, by rw [hc, hs]; simp, hne, hnm2⟩
        · exact ⟨[], inner, tail, by rw [hc, hdec]; simp, hi, hnm⟩
      | none =>
        rw [h2] at h
        obtain ⟨a, i2, b, hs, hne, hnm2⟩ := ih h
        exact ⟨c :: a, i2, b, by rw [hc, hs]; simp, hne, hnm2⟩
    · simp only [hc, if_false] at h
      obtain ⟨a, i2, b, hs, hne, hnm2⟩ := ih h
      exact ⟨c :: a, i2, b, by rw [hs]; simp, hne, hnm2⟩

/- Tag-freedom passes to contiguous substrings. -/
theorem hasTag_of_middle (u l v : Str) :
    hasTag (u ++ l ++ v) = false → hasTag l = false := by
  intro h
  by_contra hne
  have hl : hasTag l = true := by
    cases h2 : hasTag l
    · exact absurd h2 hne
    · rfl
  obtain ⟨a, inner, b, hs, hne2, hnm⟩ := decomp_of_hasTag l hl
  have : hasTag (u ++ l ++ v) = true := by
    rw [hs]
    have : u ++ (a ++ '<' :: (inner ++ '>' :: b)) ++ v =
        (u ++ a) ++ '<' :: (inner ++ '>' :: (b ++ v)) := by simp
    rw [this]
    exact hasTag_of_decomp (u ++ a) inner (b ++ v) hne2 hnm
  rw [h] at this
  exact absurd this (by decide)

theorem trimL_middle (s : Str) : ∃ u, s = u ++ trimL s :=
  ⟨s.takeWhile isWsChar, (List.takeWhile_append_dropWhile isWsChar s).symm⟩

theorem trimR_middle (s : Str) : ∃ v, s = trimR s ++ v := by
  refine ⟨(s.reverse.takeWhile isWsChar).reverse, ?_⟩
  have h2 : s.reverse.reverse =
      (s.reverse.takeWhile isWsChar ++ s.reverse.dropWhile isWsChar).reverse := by
    rw [List.takeWhile_append_dropWhile isWsChar s.reverse]
  rw [List.reverse_reverse, List.reverse_append] at h2
  exact h2

theorem trim_middle (s : Str) : ∃ u v, s = u ++ trim s ++ v := by
  obtain ⟨v, hv⟩ := trimR_middle s
  obtain ⟨u, hu⟩ := trimL_middle (trimR s)
  refine ⟨u, v, ?_⟩
  calc s = trimR s ++ v := hv
    _ = (u ++ trimL (trimR s)) ++ v := by rw [← hu]
    _ = u ++ trim s ++ v := rfl

theorem hasTag_trim (s : Str) (h : hasTag s = false) : hasTag (trim s) = false := by
  obtain ⟨u, v, huv⟩ := trim_middle s
  rw [huv] at h
  exact hasTag_of_middle u (trim s) v h

/-! ## Decimal digit strings -/

def digitToChar (d : ℕ) : Char :=
  match d with
  | 0 => '0' | 1 => '1' | 2 => '2' | 3 => '3' | 4 => '4'
  | 5 => '5' | 6 => '6' | 7 => '7' | 8 => '8' | _ => '9'

def digitVal (c : Char) : ℕ := c.toNat - 48

def ofDigitsChar (s : Str) : ℕ := s.foldl (fun a c => 10 * a + digitVal c) 0

/- Big-endian decimal rendering of a natural number, fuel-recursive.
`natDigits` is JS `String(n)` for natural `n`. -/
def natDigitsAux : ℕ → ℕ → Str
  | 0, _ => []
  | fuel + 1, n => if n = 0 then [] else natDigitsAux fuel (n / 10) ++ [digitToChar (n % 10)]

def natDigits (n : ℕ) : Str := if n = 0 then ['0'] else natDigitsAux n n

def padZeros (k : ℕ) (ds : Str) : Str := List.replicate (k - ds.length) '0' ++ ds

theorem digitVal_digitToChar {d : ℕ} (h : d < 10) : digitVal (digitToChar d) = d := by
  interval_cases d <;> rfl

theorem isDigit_digitToChar {d : ℕ} (h : d < 10) : (digitToChar d).isDigit = true := by
  interval_cases d <;> rfl

theorem ofDigitsChar_append_singleton (xs : Str) (c : Char) :
    ofDigitsChar (xs ++ [c]) = 10 * ofDigitsChar xs + digitVal c := by
  simp [ofDigitsChar, List.foldl_append]

theorem ofDigitsChar_replicate_zero (j : ℕ) (ds : Str) :
    ofDigitsChar (List.replicate j '0' ++ ds) = ofDigitsChar ds := by
  induction j with
  | zero => simp
  | succ j ih =>
    have : List.replicate (j + 1) '0' ++ ds = '0' :: (List.replicate j '0' ++ ds) := by
      simp [List.replicate_succ]
    rw [this]
    show List.foldl _ (10 * 0 + digitVal '0') _ = _
    have hv : (10 : ℕ) * 0 + digitVal '0' = 0 := by decide
    rw [hv]
    exact ih

theorem ofDigitsChar_padZeros (k : ℕ) (ds : Str) :
    ofDigitsChar (padZeros k ds) = ofDigitsChar ds :=
  ofDigitsChar_replicate_zero _ ds

theorem padZeros_length (k : ℕ) (ds : Str) (h : ds.length ≤ k) :
    (padZeros k ds).length = k := by
  simp [padZeros]
  omega

theorem natDigitsAux_fuel : ∀ (f f' n : ℕ), n ≤ f → n ≤ f' →
    natDigitsAux f n = natDigitsAux f' n := by
  intro f
  induction f with
  | zero =>
    intro f' n hf _
    have : n = 0 := Nat.le_zero.mp hf
    subst this
    cases f' <;> simp [natDigitsAux]
  | succ f ih =>
    intro f' n hf hf'
    by_cases hn : n = 0
    · subst hn
      cases f' <;> simp [natDigitsAux]
    · cases f' with
      | zero => omega
      | succ g =>
        simp only [natDigitsAux, hn, if_false]
        have h10 : n / 10 < n := Nat.div_lt_self (Nat.pos_of_ne_zero hn) (by norm_num)
        rw [ih g (n / 10) (by omega) (by omega)]

theorem natDigits_spec : ∀ (n : ℕ),
    (∀ c ∈ natDigits n, c.isDigit = true) ∧
    ofDigitsChar (natDigits n) = n ∧ natDigits n ≠ [] := by
  intro n
  induction n using Nat.strong_induction_on with
  | _ n ih =>
    by_cases hn : n = 0
    · subst hn
      refine ⟨?_, by decide, by decide⟩
      intro c hc
      simp [natDigits] at hc
      subst hc
      decide
    · have h10 : n / 10 < n := Nat.div_lt_self (Nat.pos_of_ne_zero hn) (by norm_num)
      have hmod : n % 10 < 10 := Nat.mod_lt n (by norm_num)
      have hunfold : natDigits n = natDigitsAux (n / 10) (n / 10) ++ [digitToChar (n % 10)] := by
        have h1 : natDigits n = natDigitsAux n n := by simp [natDigits, hn]
        cases n with
        | zero => exact absurd rfl hn
        | succ k =>
          rw [h1]
          simp only [natDigitsAux, hn, if_false]
          rw [natDigitsAux_fuel k ((k + 1) / 10) ((k + 1) / 10) (by omega) le_rfl]
      have haux : natDigitsAux (n / 10) (n / 10) =
          if n / 10 = 0 then [] else natDigits (n / 10) := by
        by_cases hq : n / 10 = 0
        · rw [hq]; simp [natDigitsAux]
        · simp [natDigits, hq]
      refine ⟨?_, ?_, ?_⟩
      · intro c hc
        rw [hunfold, haux] at hc
        by_cases hq : n / 10 = 0
        · simp [hq] at hc
          subst hc
          exact isDigit_digitToChar hmod
        · simp [hq] at hc
          rcases hc with hc | hc
          · exact (ih (n / 10) h10).1 c hc
          · subst hc
            exact isDigit_digitToChar hmod
      · rw [hunfold, ofDigitsChar_append_singleton, haux]
        by_cases hq : n / 10 = 0
        · simp [hq, ofDigitsChar]
          rw [digitVal_digitToChar hmod]
          omega
        · rw [if_neg hq, (ih (n / 10) h10).2.1, digitVal_digitToChar hmod]
          omega
      · rw [hunfold]
        simp

theorem natDigits_all_digits (n : ℕ) : ∀ c ∈ natDigits n, c.isDigit = true :=
  (natDigits_spec n).1

theorem ofDigitsChar_natDigits (n : ℕ) : ofDigitsChar (natDigits n) = n :=
  (natDigits_spec n).2.1

theorem natDigits_ne_nil (n : ℕ) : natDigits n ≠ [] :=
  (natDigits_spec n).2.2

theorem natDigits_length_le : ∀ (k n : ℕ), 0 < k → n < 10 ^ k →
    (natDigits n).length ≤ k := by
  have haux : ∀ (k n : ℕ), n < 10 ^ k → n ≠ 0 → (natDigits n).length ≤ k := by
    intro k
    induction k with
    | zero =>
      intro n hk hn
      simp at hk
      omega
    | succ k ihk =>
      intro n hk hn
      have h10 : n / 10 < n := Nat.div_lt_self (Nat.pos_of_ne_zero hn) (by norm_num)
      have hunfold : natDigits n = natDigitsAux (n / 10) (n / 10) ++ [digitToChar (n % 10)] := by
        have h1 : natDigits n = natDigitsAux n n := by simp [natDigits, hn]
        cases n with
        | zero => exact absurd rfl hn
        | succ j =>
          rw [h1]
          simp only [natDigitsAux, hn, if_false]
          rw [natDigitsAux_fuel j ((j + 1) / 10) ((j + 1) / 10) (by omega) le_rfl]
      rw [hunfold]
      by_cases hq : n / 10 = 0
      · rw [hq]
        simp [natDigitsAux]
      · have hlt : n / 10 < 10 ^ k := by
          rw [Nat.div_lt_iff_lt_mul (by norm_num : (0:ℕ) < 10)]
          calc n < 10 ^ (k + 1) := hk
            _ = 10 ^ k * 10 := by ring
        have := ihk (n / 10) hlt hq
        have heq : natDigitsAux (n / 10) (n / 10) = natDigits (n / 10) := by
          simp [natDigits, hq]
        rw [heq]
        simp
        omega
  intro k n hk hn
  by_cases h0 : n = 0
  · subst h0
    simp [natDigits]
    omega
  · exact haux k n hn h0

/-! ## JS numbers as exact decimals -/

/- An exact decimal number with value `m / 10 ^ e`.  Every operation below
returns the canonical representative (`e = 0`, or mantissa not divisible by
10), so equality of canonical values is structural equality.  This is the
exact-decimal abstraction of the (small, decimal) float values that flow
through the payment code. -/
structure JNum where
  m : ℤ
  e : ℕ
deriving DecidableEq, Repr

def JNum.canon (a : JNum) : Bool := a.e == 0 || a.m % 10 != 0

def JNum.normAux : ℕ → ℤ → ℕ → JNum
  | 0, m, e => ⟨m, e⟩
  | _ + 1, m, 0 => ⟨m, 0⟩
  | fuel + 1, m, e + 1 => if m % 10 = 0 then JNum.normAux fuel (m / 10) e else ⟨m, e + 1⟩

def JNum.norm (m : ℤ) (e : ℕ) : JNum := JNum.normAux e m e

def JNum.val (a : JNum) : ℚ := (a.m : ℚ) / 10 ^ a.e

def JNum.ofInt (n : ℤ) : JNum := ⟨n, 0⟩

def JNum.add (a b : JNum) : JNum := JNum.norm (a.m * 10 ^ b.e + b.m * 10 ^ a.e) (a.e + b.e)

def JNum.mul (a b : JNum) : JNum := JNum.norm (a.m * b.m) (a.e + b.e)

def JNum.neg (a : JNum) : JNum := ⟨-a.m, a.e⟩

def JNum.blt (a b : JNum) : Bool := decide (a.m * 10 ^ b.e < b.m * 10 ^ a.e)

def JNum.divPow10 (a : JNum) (k : ℕ) : JNum := JNum.norm a.m (a.e + k)

def JNum.floorInt (a : JNum) : ℤ := Int.fdiv a.m (10 ^ a.e)

/- JS `Math.round x` is `⌊x + 1/2⌋`. -/
def JNum.round (a : JNum) : ℤ := JNum.floorInt (JNum.add a ⟨5, 1⟩)

def JNum.isZero (a : JNum) : Bool := a.m == 0

theorem JNum.val_mk (m : ℤ) (e : ℕ) : JNum.val ⟨m, e⟩ = (m : ℚ) / 10 ^ e := rfl

theorem JNum.val_normAux : ∀ (fuel : ℕ) (m : ℤ) (e : ℕ),
    JNum.val (JNum.normAux fuel m e) = (m : ℚ) / 10 ^ e := by
  intro fuel
  induction fuel with
  | zero => intro m e; rfl
  | succ f ih =>
    intro m e
    cases e with
    | zero => rfl
    | succ e' =>
      simp only [JNum.normAux]
      by_cases hm : m % 10 = 0
      · simp only [hm, if_true]
        rw [ih (m / 10) e']
        have hdvd : (10 : ℤ) ∣ m := Int.dvd_of_emod_eq_zero hm
        obtain ⟨k, hk⟩ := hdvd
        subst hk
        rw [Int.mul_ediv_cancel_left k (by norm_num)]
        push_cast
        rw [pow_succ]
        have h10 : ((10 : ℚ) ^ e') ≠ 0 := by positivity
        field_simp
        ring
      · simp [hm, JNum.val]

theorem JNum.val_norm (m : ℤ) (e : ℕ) : JNum.val (JNum.norm m e) = (m : ℚ) / 10 ^ e :=
  JNum.val_normAux e m e

theorem JNum.canon_normAux : ∀ (fuel : ℕ) (m : ℤ) (e : ℕ), e ≤ fuel →
    JNum.canon (JNum.normAux fuel m e) = true := by
  intro fuel
  induction fuel with
  | zero =>
    intro m e he
    have : e = 0 := Nat.le_zero.mp he
    subst this
    rfl
  | succ f ih =>
    intro m e he
    cases e with
    | zero => rfl
    | succ e' =>
      simp only [JNum.normAux]
      by_cases hm : m % 10 = 0
      · simp only [hm, if_true]
        exact ih (m / 10) e' (by omega)
      · simp [JNum.canon, hm]

theorem JNum.canon_norm (m : ℤ) (e : ℕ) : JNum.canon (JNum.norm m e) = true :=
  JNum.canon_normAux e m e le_rfl

theorem JNum.norm_eq_self {m : ℤ} {e : ℕ} (h : JNum.canon ⟨m, e⟩ = true) :
    JNum.norm m e = ⟨m, e⟩ := by
  cases e with
  | zero => rfl
  | succ e' =>
    have hm : m % 10 ≠ 0 := by
      simp [JNum.canon] at h
      exact fun he => h (Int.dvd_of_emod_eq_zero he)
    show JNum.normAux (e' + 1) m (e' + 1) = _
    simp [JNum.normAux, hm]

theorem JNum.val_add (a b : JNum) : JNum.val (JNum.add a b) = JNum.val a + JNum.val b := by
  rw [JNum.add, JNum.val_norm, JNum.val, JNum.val]
  push_cast
  rw [pow_add]
  have h1 : ((10 : ℚ) ^ a.e) ≠ 0 := by positivity
  have h2 : ((10 : ℚ) ^ b.e) ≠ 0 := by positivity
  field_simp

theorem JNum.val_mul (a b : JNum) : JNum.val (JNum.mul a b) = JNum.val a * JNum.val b := by
  rw [JNum.mul, JNum.val_norm, JNum.val, JNum.val]
  push_cast
  rw [pow_add]
  have h1 : ((10 : ℚ) ^ a.e) ≠ 0 := by positivity
  have h2 : ((10 : ℚ) ^ b.e) ≠ 0 := by positivity
  field_simp

theorem JNum.val_ofInt (n : ℤ) : JNum.val (JNum.ofInt n) = (n : ℚ) := by
  simp [JNum.ofInt, JNum.val]

theorem JNum.blt_iff_val (a b : JNum) : JNum.blt a b = true ↔ JNum.val a < JNum.val b := by
  rw [JNum.blt, decide_eq_true_iff, JNum.val, JNum.val]
  rw [div_lt_div_iff₀ (by positivity) (by positivity)]
  constructor
  · intro h
    exact_mod_cast h
  · intro h
    exact_mod_cast h

theorem JNum.val_divPow10 (a : JNum) (k : ℕ) :
    JNum.val (JNum.divPow10 a k) = JNum.val a / 10 ^ k := by
  rw [JNum.divPow10, JNum.val_norm, JNum.val]
  rw [pow_add]
  field_simp

theorem JNum.floorInt_val (a : JNum) : JNum.floorInt a = ⌊JNum.val a⌋ := by
  rw [JNum.floorInt, JNum.val]
  have hcast : ((10 : ℚ) ^ a.e) = (((10 : ℕ) ^ a.e : ℕ) : ℚ) := by push_cast; ring
  rw [hcast, Rat.floor_intCast_div_natCast a.m (10 ^ a.e)]
  have hb : (0 : ℤ) ≤ (10 : ℤ) ^ a.e := by positivity
  have h1 : a.m.fdiv ((10 : ℤ) ^ a.e) = a.m / ((10 : ℤ) ^ a.e) := Int.fdiv_eq_ediv _ hb
  push_cast
  exact h1

/-! ## Rendering and parsing decimal numerals -/

def numToStrNN (m e : ℕ) : Str :=
  if e = 0 then natDigits m
  else natDigits (m / 10 ^ e) ++ '.' :: padZeros e (natDigits (m % 10 ^ e))

/- JS `String(n)` for an exact decimal in canonical form. -/
def numToStr (a : JNum) : Str :=
  if a.m < 0 then '-' :: numToStrNN (-a.m).toNat a.e else numToStrNN a.m.toNat a.e

/- Value of the digit strings `ds . fs` captured by a numeric regex group
(what JS `Number` yields on such a capture). -/
def parseDecChars (ds fs : Str) : JNum :=
  JNum.norm ((ofDigitsChar ds : ℤ) * 10 ^ fs.length + (ofDigitsChar fs : ℤ)) fs.length

theorem ofDigitsChar_nil : ofDigitsChar [] = 0 := rfl

theorem parseDecChars_nil (ds : Str) :
    parseDecChars ds [] = ⟨(ofDigitsChar ds : ℤ), 0⟩ := by
  simp [parseDecChars, JNum.norm, JNum.normAux, ofDigitsChar_nil]

theorem parseDecChars_decomp (m e : ℕ) (he : e ≠ 0) :
    parseDecChars (natDigits (m / 10 ^ e)) (padZeros e (natDigits (m % 10 ^ e))) =
      JNum.norm (m : ℤ) e := by
  have hmod : m % 10 ^ e < 10 ^ e := Nat.mod_lt m (by positivity)
  have hlen : (natDigits (m % 10 ^ e)).length ≤ e :=
    natDigits_length_le e (m % 10 ^ e) (Nat.pos_of_ne_zero he) hmod
  have hflen : (padZeros e (natDigits (m % 10 ^ e))).length = e :=
    padZeros_length e _ hlen
  rw [parseDecChars, hflen, ofDigitsChar_padZeros, ofDigitsChar_natDigits,
    ofDigitsChar_natDigits]
  have hval : ((m / 10 ^ e : ℕ) : ℤ) * 10 ^ e + ((m % 10 ^ e : ℕ) : ℤ) = (m : ℤ) := by
    exact_mod_cast Nat.div_add_mod' m (10 ^ e)
  rw [hval]

/-! ## Splitting on a separator (JS `String.split`) -/

def splitSepFuel (sep : Str) : ℕ → Str → List Str
  | 0, s => [s]
  | _ + 1, [] => [[]]
  | fuel + 1, c :: rest =>
    if isPre sep (c :: rest) then
      [] :: splitSepFuel sep fuel ((c :: rest).drop sep.length)
    else
      match splitSepFuel sep fuel rest with
      | [] => [[c]]
      | h :: t => (c :: h) :: t

/- JS `String.split` for a fixed non-empty separator (all call sites here
use `" | "`). -/
def splitSep (sep s : Str) : List Str :=
  if sep.isEmpty then [s] else splitSepFuel sep s.length s

/-! ## JS scalar values and objects -/

inductive JVal where
  | vnull : JVal
  | vstr : Str → JVal
  | vnum : JNum → JVal
  | vbool : Bool → JVal
deriving DecidableEq, Repr

/- A JS object as an association list in insertion order (keys distinct). -/
abbrev JObj := List (Str × JVal)

def jget : JObj → Str → Option JVal
  | [], _ => none
  | (k, v) :: rest, key => if k = key then some v else jget rest key

/- JS `String(v)` on the scalar values of the model. -/
def jsStringOf : JVal → Str
  | .vnull => strOf "null"
  | .vstr s => s
  | .vnum q => numToStr q
  | .vbool b => if b then strOf "true" else strOf "false"

def truthy : Option JVal → Bool
  | none => false
  | some .vnull => false
  | some (.vstr s) => !s.isEmpty
  | some (.vnum q) => !(q.m == 0)
  | some (.vbool b) => b

/- `asReadable` restricted to scalars (this part is identical in all
revisions; the revisions differ only on nested objects/arrays, which are
outside the model). -/
def asReadable : JVal → Str
  | .vnull => []
  | .vstr s => trim s
  | .vnum q => numToStr q
  | .vbool b => if b then strOf "Yes" else strOf "No"

def parseUnsignedFull (u : Str) : Option JNum :=
  let ds := u.takeWhile Char.isDigit
  match u.dropWhile Char.isDigit with
  | [] => if ds.isEmpty then none else some ⟨(ofDigitsChar ds : ℤ), 0⟩
  | c :: r2 =>
    if c = '.' then
      let fs := r2.takeWhile Char.isDigit
      if !(r2.dropWhile Char.isDigit).isEmpty then none
      else if ds.isEmpty && fs.isEmpty then none
      else some (parseDecChars ds fs)
    else none

/- JS `Number(string)` restricted to plain decimal literals; other forms
(hex, exponents, `Infinity`, garbage) give NaN (`none`). -/
def jsParseNumber (s : Str) : Option JNum :=
  match trim s with
  | [] => some (JNum.ofInt 0)
  | '-' :: r => (parseUnsignedFull r).map JNum.neg
  | '+' :: r => parseUnsignedFull r
  | t => parseUnsignedFull t

/- JS `Number(v)`; `none` is NaN (an absent value is `undefined`). -/
def jsNumber : Option JVal → Option JNum
  | none => none
  | some .vnull => some (JNum.ofInt 0)
  | some (.vbool b) => some (JNum.ofInt (if b then 1 else 0))
  | some (.vnum q) => some q
  | some (.vstr s) => jsParseNumber s

/- First match of the regex `-?\d+(?:\.\d+)?` (used by `numFromPrice`). -/
def matchUDecAt (s : Str) : Option JNum :=
  let ds := s.takeWhile Char.isDigit
  if ds.isEmpty then none
  else
    match s.dropWhile Char.isDigit with
    | '.' :: r2 =>
      let fs := r2.takeWhile Char.isDigit
      if fs.isEmpty then some (parseDecChars ds [])
      else some (parseDecChars ds fs)
    | _ => some (parseDecChars ds [])

def findSignedDec : Str → Option JNum
  | [] => none
  | c :: rest =>
    if c = '-' then
      match matchUDecAt rest with
      | some q => some (JNum.neg q)
      | none => findSignedDec rest
    else
      match matchUDecAt (c :: rest) with
      | some q => some q
      | none => findSignedDec rest

/-! ## The latest revision (`src/unnamed/part_001`) -/

namespace P1

/- `stripTags = (s = "") => String(s).replace(tag regex, "").trim()` applied
to a string argument. -/
def stripTagsStr (s : Str) : Str := trim (stripTagsCore s)

/- `stripLabel(s, label)`: strip tags, then remove one leading
`label\s*:\s*` (case-insensitive), then trim. -/
def stripLabelStr (s : Str) (label : Str) : Str :=
  let clean := stripTagsStr s
  if label.isEmpty then clean
  else
    match dropPreCI label clean with
    | none => clean
    | some r =>
      match trimL r with
      | c :: r3 => if c = ':' then trim (List.dropWhile isWsChar r3) else clean
      | [] => clean

/- `stripLabel(it?.field, label)`: an absent field hits the `""` default
parameter; any other value goes through `String(...)`. -/
def stripLabel (v : Option JVal) (label : Str) : Str :=
  match v with
  | none => stripLabelStr [] label
  | some w => stripLabelStr (jsStringOf w) label

/- `numFromPrice`: numbers pass through; otherwise the first
`-?\d+(?:\.\d+)?` match of `String(s)` (0 when there is none). -/
def numFromPrice (v : Option JVal) : JNum :=
  match v with
  | some (.vnum q) => q
  | none =>
    match findSignedDec (strOf "undefined") with
    | some q => q
    | none => JNum.ofInt 0
  | some w =>
    match findSignedDec (jsStringOf w) with
    | some q => q
    | none => JNum.ofInt 0

/- The canonical normalized item (`normalizeCart`'s record, `_line`/`_name`
written `line`/`name`). -/
structure NItem where
  preset : Str
  handleType : Str
  mugType : Str
  mugColor : Str
  replacementName : Str
  quantity : JNum
  price : JNum
  line : ℕ
  name : Str
deriving DecidableEq, Repr

/- `describeItem` from part_001.  In the source it receives the clean record
built inside `normalizeCart` (never null there), so it is specialized to
that record; the five fields are re-passed through `stripLabel`. -/
def describeItem (item : NItem) (index : ℕ) : Str :=
  let preset := stripLabelStr item.preset (strOf "Preset")
  let handleType := stripLabelStr item.handleType (strOf "Handle Type")
  let mugType := stripLabelStr item.mugType (strOf "Mug Type")
  let mugColor := stripLabelStr item.mugColor (strOf "Mug Color")
  let replacementName := stripLabelStr item.replacementName (strOf "Replacement Name")
  let parts :=
    (if preset.isEmpty then [] else [strOf "Preset: " ++ preset]) ++
    (if handleType.isEmpty then [] else [strOf "Handle Type: " ++ handleType]) ++
    (if mugType.isEmpty then [] else [strOf "Mug Type: " ++ mugType]) ++
    (if mugColor.isEmpty then [] else [strOf "Mug Color: " ++ mugColor]) ++
    (if replacementName.isEmpty then [] else [strOf "Replacement Name: " ++ replacementName])
  if parts.isEmpty then strOf "Item " ++ natDigits index
  else List.intercalate (strOf ", ") parts

def normalizeItem (it : JObj) (idx : ℕ) : NItem :=
  let quantity :=
    match jsNumber (jget it (strOf "quantity")) with
    | some q => if JNum.blt (JNum.ofInt 0) q then q else JNum.ofInt 1
    | none => JNum.ofInt 1
  let price := numFromPrice (jget it (strOf "price"))
  let base : NItem :=
    { preset := stripLabel (jget it (strOf "preset")) (strOf "Preset")
      handleType := stripLabel (jget it (strOf "handleType")) (strOf "Handle Type")
      mugType := stripLabel (jget it (strOf "mugType")) (strOf "Mug Type")
      mugColor := stripLabel (jget it (strOf "mugColor")) (strOf "Mug Color")
      replacementName := stripLabel (jget it (strOf "replacementName")) (strOf "Replacement Name")
      quantity := quantity
      price := price
      line := idx + 1
      name := [] }
  { base with name := describeItem base (idx + 1) }

def normalizeCart (items : List JObj) : List NItem :=
  items.mapIdx fun idx it => normalizeItem it idx

/- One line of the `/pay` metadata string:
`Item ${i+1}: ${it._name} (x${it.quantity}) @ R${it.price}`. -/
def lineOf (i : ℕ) (it : NItem) : Str :=
  strOf "Item " ++ natDigits i ++ strOf ": " ++ it.name ++
    strOf " (x" ++ numToStr it.quantity ++ strOf ") @ R" ++ numToStr it.price

def cartItemsForMetadata (ns : List NItem) : Str :=
  List.intercalate (strOf " | ") (ns.mapIdx fun i it => lineOf (i + 1) it)

/- `x || 1` on numbers (`0` is falsy; `NaN` cannot reach this call site). -/
def jsOrNum (q d : JNum) : JNum := if q.m = 0 then d else q

/- `normalized.reduce((s, it) => s + it.price * (it.quantity || 1), 0)`. -/
def computedTotal (ns : List NItem) : JNum :=
  ns.foldl (fun s it => JNum.add s (JNum.mul it.price (jsOrNum it.quantity (JNum.ofInt 1))))
    (JNum.ofInt 0)

/- `Number.isFinite(Number(amount)) && Number(amount) > 0 ? Number(amount)
: computedTotal`. -/
def totalAmount (amount : Option JVal) (ns : List NItem) : JNum :=
  match jsNumber amount with
  | some a => if JNum.blt (JNum.ofInt 0) a then a else computedTotal ns
  | none => computedTotal ns

/- `initPayload.amount = Math.round(totalAmount * 100)` (minor units). -/
def initAmount (amount : Option JVal) (ns : List NItem) : ℤ :=
  JNum.round (JNum.mul (totalAmount amount ns) (JNum.ofInt 100))

structure PayReq where
  amount : Option JVal
  items : Option (List JObj)
  deliveryMethod : Option Str
  phoneValue : Option Str
  emailValue : Option Str
  fullNameValue : Option Str

/- JS falsiness for the string-valued request fields modelled here. -/
def falsyStr : Option Str → Bool
  | none => true
  | some s => s.isEmpty

structure InitPayload where
  email : Str
  amount : ℤ
  cartItems : Str
deriving DecidableEq, Repr

/- `badRequest` is `res.status(400).json({error: msg})` before any outbound
call; `initiated` is the `axios.post` to the gateway with the payload. -/
inductive PayResult where
  | badRequest : Str → PayResult
  | initiated : InitPayload → PayResult
deriving DecidableEq, Repr

def payHandler (req : PayReq) : PayResult :=
  if falsyStr req.emailValue || falsyStr req.phoneValue || falsyStr req.fullNameValue then
    .badRequest (strOf "Missing customer details.")
  else
    match req.items with
    | none => .badRequest (strOf "Cart is empty or invalid.")
    | some [] => .badRequest (strOf "Cart is empty or invalid.")
    | some items =>
      let ns := normalizeCart items
      let meta := cartItemsForMetadata ns
      .initiated
        { email := (req.emailValue).getD []
          amount := initAmount req.amount ns
          cartItems := if meta.isEmpty then strOf "No items" else meta }

structure WebhookReq where
  signature : Option Str
  rawBody : Str
  event : Str
  customerEmail : Option Str

structure WebhookOutcome where
  status : ℕ
  emailsAttempted : ℕ
deriving DecidableEq, Repr

/- The part_001 webhook: HMAC over the raw body, 400 on missing/mismatched
signature, 200 acked before the email sends, catch also answers 200.
`hmac` abstracts `crypto.createHmac("sha512", key).update(body).digest("hex")`;
`email1Ok` says whether the first `sendEmailWithTemplate` succeeds (when it
throws, the second send is not reached). -/
def webhook (hmac : Str → Str → Str) (secret : Str) (req : WebhookReq)
    (email1Ok : Bool) : WebhookOutcome :=
  let hash := hmac secret req.rawBody
  match req.signature with
  | none => ⟨400, 0⟩
  | some sig =>
    if sig = [] ∨ hash ≠ sig then ⟨400, 0⟩
    else if req.event ≠ strOf "charge.success" then ⟨200, 0⟩
    else
      match req.customerEmail with
      | none => ⟨200, 0⟩
      | some e => if e = [] then ⟨200, 0⟩ else ⟨200, if email1Ok then 2 else 1⟩

/- `Number(((data.amount || 0) / 100).toFixed(2))`; `toFixed(2)` is
rounding to two decimal places, exact on the integer minor-unit amounts the
gateway sends. -/
def toFixed2 (x : JNum) : JNum :=
  JNum.norm (JNum.round (JNum.mul x (JNum.ofInt 100))) 2

def amountRand (a : Option JNum) : JNum :=
  toFixed2 (JNum.divPow10 (a.getD (JNum.ofInt 0)) 2)

structure TItem where
  name : Str
  quantity : JNum
  price : JNum
deriving DecidableEq, Repr

/- First match of `\(x(\d+)\)` with the `i` flag: the captured digits. -/
def matchQtyAfter (r : Str) : Option ℕ :=
  match r with
  | c :: r2 =>
    if c = 'x' ∨ c = 'X' then
      let ds := r2.takeWhile Char.isDigit
      if ds.isEmpty then none
      else
        match r2.dropWhile Char.isDigit with
        | ')' :: _ => some (ofDigitsChar ds)
        | _ => none
    else none
  | [] => none

def findQty : Str → Option ℕ
  | [] => none
  | c :: rest =>
    if c = '(' then
      match matchQtyAfter rest with
      | some n => some n
      | none => findQty rest
    else findQty rest

/- First match of `@ R([0-9]+(?:\.[0-9]+)?)` with the `i` flag: the
capture's numeric value. -/
def matchPriceAfter (r : Str) : Option JNum :=
  match r with
  | ' ' :: c :: r2 =>
    if c = 'R' ∨ c = 'r' then
      let ds := r2.takeWhile Char.isDigit
      if ds.isEmpty then none
      else
        match r2.dropWhile Char.isDigit with
        | '.' :: r3 =>
          let fs := r3.takeWhile Char.isDigit
          if fs.isEmpty then some (parseDecChars ds [])
          else some (parseDecChars ds fs)
        | _ => some (parseDecChars ds [])
    else none
  | _ => none

def findPrice : Str → Option JNum
  | [] => none
  | c :: rest =>
    if c = '@' then
      match matchPriceAfter rest with
      | some q => some q
      | none => findPrice rest
    else findPrice rest

/- Length consumed after a `(` by `\(x\d+\)\s*@ R[0-9.]+` with the `i`
flag (none when the pattern does not match at this `(`). -/
def matchStripLen (r : Str) : Option ℕ :=
  match r with
  | c :: r2 =>
    if c = 'x' ∨ c = 'X' then
      let ds := r2.takeWhile Char.isDigit
      if ds.isEmpty then none
      else
        match r2.dropWhile Char.isDigit with
        | ')' :: r3 =>
          let ws := r3.takeWhile isWsChar
          match r3.dropWhile isWsChar with
          | '@' :: ' ' :: c2 :: r4 =>
            if c2 = 'R' ∨ c2 = 'r' then
              let ps := r4.takeWhile (fun d => d.isDigit || d == '.')
              if ps.isEmpty then none
              else some (1 + ds.length + 1 + ws.length + 3 + ps.length)
            else none
          | _ => none
        | _ => none
    else none
  | [] => none

/- `line.replace(that pattern, "")`: remove the first match only. -/
def removeQtyPrice : Str → Str
  | [] => []
  | c :: rest =>
    if c = '(' then
      match matchStripLen rest with
      | some len => rest.drop len
      | none => c :: removeQtyPrice rest
    else c :: removeQtyPrice rest

/- One decoded line of the webhook fallback parser. -/
def parseCartLine (line : Str) : TItem :=
  { name := trim (removeQtyPrice line)
    quantity :=
      match findQty line with
      | some n => JNum.ofInt n
      | none => JNum.ofInt 1
    price :=
      match findPrice line with
      | some q => q
      | none => JNum.ofInt 0 }

/- The webhook fallback: `cartItemsString.split(" | ").filter(Boolean).map(...)`. -/
def itemsArrayOfString (s : Str) : List TItem :=
  ((splitSep (strOf " | ") s).filter (fun l => !l.isEmpty)).map parseCartLine

end P1

/-! ## Raw cart items for the `describeItem` variants -/

/- A raw cart item as the generic `describeItem` variants receive it:
null/undefined, a bare string, or an object. -/
inductive JItem where
  | jnull : JItem
  | jstr : Str → JItem
  | jobj : JObj → JItem
deriving DecidableEq, Repr

/-! ## `server.js` (part_000) = middle revision of `index.js` -/

namespace Srv

/- `isPlaceholder`: strings matching `^item\s*\d+$` case-insensitively
after trimming; anything that is not a string is not a placeholder. -/
def isPlaceholder (v : JVal) : Bool :=
  match v with
  | .vstr s =>
    match dropPreCI (strOf "item") (trim s) with
    | none => false
    | some r =>
      let ds := List.dropWhile isWsChar r
      !ds.isEmpty && ds.all Char.isDigit
  | _ => false

def collapseSepsAux : Bool → Str → Str
  | _, [] => []
  | inRun, c :: rest =>
    if c = '_' || c = '-' then
      if inRun then collapseSepsAux true rest else ' ' :: collapseSepsAux true rest
    else c :: collapseSepsAux false rest

def isWordChar (c : Char) : Bool := c.isAlphanum || c = '_'

def upWordsAux : Bool → Str → Str
  | _, [] => []
  | prevWord, c :: rest =>
    (if isWordChar c && !prevWord then c.toUpper else c) :: upWordsAux (isWordChar c) rest

/- `toTitle`: `k.replace(/[_-]+/g, " ").replace(/\b\w/g, up)`. -/
def toTitle (k : Str) : Str := upWordsAux false (collapseSepsAux false k)

def knownFields : List (Str × Str) :=
  [(strOf "preset", strOf "Preset"), (strOf "handleType", strOf "Handle Type"),
   (strOf "mugType", strOf "Mug Type"), (strOf "mugColor", strOf "Mug Color"),
   (strOf "replacementName", strOf "Replacement Name"), (strOf "variant", strOf "Variant"),
   (strOf "size", strOf "Size"), (strOf "color", strOf "Color"),
   (strOf "engraving", strOf "Engraving"), (strOf "notes", strOf "Notes")]

def skipKeys : List Str :=
  [strOf "quantity", strOf "qty", strOf "price", strOf "total", strOf "lineTotal",
   strOf "id", strOf "sku", strOf "image", strOf "images", strOf "thumb",
   strOf "_line", strOf "preset"]

/- The known-field loop: `hasOwnProperty`, skip placeholder presets, push
`"{Label}: {asReadable raw}"` when the text is non-empty. -/
def knownParts (o : JObj) : List Str :=
  knownFields.filterMap fun kl =>
    match jget o kl.1 with
    | none => none
    | some raw =>
      if kl.1 == strOf "preset" && isPlaceholder raw then none
      else
        let v := asReadable raw
        if v.isEmpty then none else some (kl.2 ++ strOf ": " ++ v)

/- The filter of the unknown-field fallback: key outside the skip set,
value non-null, `String(v)` non-blank. -/
def fallbackPred (kv : Str × JVal) : Bool :=
  !(skipKeys.contains kv.1) && kv.2 != JVal.vnull && !(trim (jsStringOf kv.2)).isEmpty

/- The unknown-field fallback parts. -/
def fallbackParts (o : JObj) : List Str :=
  (o.filter fallbackPred).map fun kv => toTitle kv.1 ++ strOf ": " ++ asReadable kv.2

def describeItem (item : JItem) (index : ℕ) : Str :=
  match item with
  | .jnull => strOf "Item " ++ natDigits index
  | .jstr s => if (trim s).isEmpty then strOf "Item " ++ natDigits index else trim s
  | .jobj o =>
    let parts := knownParts o
    let parts2 := if parts.isEmpty then fallbackParts o else parts
    if parts2.isEmpty then strOf "Item " ++ natDigits index
    else List.intercalate (strOf ", ") parts2

end Srv

/-! ## Last revision inside `index.js` -/

namespace V3

/- The simplified `describeItem`: five known fields tested by plain
truthiness, no placeholder guard, no unknown-field fallback. -/
def describeItem (item : JItem) (index : ℕ) : Str :=
  match item with
  | .jnull => strOf "Item " ++ natDigits index
  | .jstr s => if (trim s).isEmpty then strOf "Item " ++ natDigits index else trim s
  | .jobj o =>
    let fields : List (Str × Str) :=
      [(strOf "preset", strOf "Preset"), (strOf "handleType", strOf "Handle Type"),
       (strOf "mugType", strOf "Mug Type"), (strOf "mugColor", strOf "Mug Color"),
       (strOf "replacementName", strOf "Replacement Name")]
    let parts := fields.filterMap fun kl =>
      match jget o kl.1 with
      | none => none
      | some raw =>
        if truthy (some raw) then some (kl.2 ++ strOf ": " ++ asReadable raw) else none
    if parts.isEmpty then strOf "Item " ++ natDigits index
    else List.intercalate (strOf ", ") parts

/- The webhook of the last index.js revision: same HMAC check, but the
email send happens inside the `try`, and the catch sends 500.  A missing
customer email on `charge.success` answers 400. -/
def webhook (hmac : Str → Str → Str) (secret : Str) (req : P1.WebhookReq)
    (emailOk : Bool) : P1.WebhookOutcome :=
  let hash := hmac secret req.rawBody
  if req.signature ≠ some hash then ⟨400, 0⟩
  else if req.event ≠ strOf "charge.success" then ⟨200, 0⟩
  else if P1.falsyStr req.customerEmail then ⟨400, 0⟩
  else if emailOk then ⟨200, 1⟩ else ⟨500, 1⟩

end V3

/-! ## Claim C2 — webhook signature mismatch -/

/-- C2: for every webhook request whose `x-paystack-signature` header does
not equal the locally computed HMAC of the exact raw request body under the
gateway secret key, both signature-checking webhook handlers (part_001 and
the last index.js revision) respond HTTP 400 and attempt no email send.
The HMAC-SHA-512 primitive is abstracted by the `hmac` parameter since the
handlers only compare its output. -/
theorem c2_signature_mismatch_rejected
    (hmac : Str → Str → Str) (secret : Str) (req : P1.WebhookReq) (e1 e2 : Bool)
    (h : req.signature ≠ some (hmac secret req.rawBody)) :
    P1.webhook hmac secret req e1 = ⟨400, 0⟩ ∧
    V3.webhook hmac secret req e2 = ⟨400, 0⟩ := by
  constructor
  · rw [P1.webhook]
    cases hs : req.signature with
    | none => rfl
    | some sig =>
      have hne : hmac secret req.rawBody ≠ sig := by
        intro e
        exact h (by rw [hs, e])
      simp [hne]
  · rw [V3.webhook]
    simp [h]

/-- Witness for C2 at a concrete mismatched signature. -/
theorem c2_signature_mismatch_rejected_witness :
    P1.webhook (fun k b => k ++ b) (strOf "sk")
      ⟨some (strOf "bad"), strOf "body", strOf "charge.success", some (strOf "c@x")⟩ true
      = ⟨400, 0⟩ ∧
    V3.webhook (fun k b => k ++ b) (strOf "sk")
      ⟨some (strOf "bad"), strOf "body", strOf "charge.success", some (strOf "c@x")⟩ true
      = ⟨400, 0⟩ :=
  c2_signature_mismatch_rejected (fun k b => k ++ b) (strOf "sk") _ true true (by decide)

/-! ## Claim C3 — acknowledgment versus email failure -/

/-- C3 counterexample: in the webhook of the last index.js revision, an
authenticated `charge.success` event whose email dispatch throws is
answered HTTP 500 (its catch block sends 500), not 200; flipping only the
email outcome flips the status, so the non-200 is caused by the email-send
error, contradicting the claim. -/
theorem c3_counterexample :
    (some (strOf "sb") = some ((fun k b => k ++ b) (strOf "s") (strOf "b"))) ∧
    V3.webhook (fun k b => k ++ b) (strOf "s")
      ⟨some (strOf "sb"), strOf "b", strOf "charge.success", some (strOf "c@x")⟩ false
      = ⟨500, 1⟩ ∧
    V3.webhook (fun k b => k ++ b) (strOf "s")
      ⟨some (strOf "sb"), strOf "b", strOf "charge.success", some (strOf "c@x")⟩ true
      = ⟨200, 1⟩ := by decide

/-- C3 (amended): the part_001 webhook handler answers HTTP 200 for every
request whose signature header equals the locally computed (non-empty) HMAC
digest, whatever the email dispatch does; only signature failure produces a
non-200 status there.  The historical handlers in index.js instead answer
500 when the email send throws. -/
theorem c3_ack_200_amended (hmac : Str → Str → Str) (secret : Str)
    (req : P1.WebhookReq) (e1 : Bool)
    (hsig : req.signature = some (hmac secret req.rawBody))
    (hne : hmac secret req.rawBody ≠ []) :
    (P1.webhook hmac secret req e1).status = 200 := by
  rw [P1.webhook, hsig]
  simp only
  rw [if_neg (by simp [hne, Ne, eq_comm] : ¬(hmac secret req.rawBody = [] ∨
    hmac secret req.rawBody ≠ hmac secret req.rawBody))]
  by_cases hev : req.event ≠ strOf "charge.success"
  · simp [hev]
  · simp only [hev, if_false]
    cases req.customerEmail with
    | none => rfl
    | some e =>
      by_cases he : e = [] <;> simp [he]

/-- Witness for C3's amended theorem at a concrete authenticated request
with a failing email dispatch. -/
theorem c3_ack_200_amended_witness :
    (P1.webhook (fun k b => k ++ b) (strOf "s")
      ⟨some (strOf "sb"), strOf "b", strOf "charge.success", some (strOf "c@x")⟩ false).status
      = 200 :=
  c3_ack_200_amended (fun k b => k ++ b) (strOf "s") _ false (by decide) (by decide)

/-! ## Claim C6 — `/pay` validation -/

/-- C6 counterexample: with the email field missing and `items = []`, `/pay`
answers 400 with body `"Missing customer details."`, not the body
`"Cart is empty or invalid."` the claim requires whenever items is not a
non-empty array — the customer-details check runs first. -/
theorem c6_counterexample :
    P1.payHandler ⟨none, some [], none, some (strOf "1"), none, some (strOf "n")⟩
      = P1.PayResult.badRequest (strOf "Missing customer details.") ∧
    strOf "Missing customer details." ≠ strOf "Cart is empty or invalid." := by decide

/-- C6 (amended): `/pay` answers 400 `{error: "Cart is empty or invalid."}`
whenever the three customer fields are present and `items` is not a
non-empty array, and 400 `{error: "Missing customer details."}` whenever a
customer field is missing (that check runs first).  Both are `badRequest`
results, produced before any gateway call (`initiated` is the only result
that carries a gateway payload). -/
theorem c6_validation_amended (req : P1.PayReq) :
    (P1.falsyStr req.emailValue = false → P1.falsyStr req.phoneValue = false →
      P1.falsyStr req.fullNameValue = false →
      (req.items = none ∨ req.items = some []) →
      P1.payHandler req = P1.PayResult.badRequest (strOf "Cart is empty or invalid.")) ∧
    ((P1.falsyStr req.emailValue = true ∨ P1.falsyStr req.phoneValue = true ∨
      P1.falsyStr req.fullNameValue = true) →
      P1.payHandler req = P1.PayResult.badRequest (strOf "Missing customer details.")) := by
  constructor
  · intro he hp hf hitems
    rw [P1.payHandler]
    rw [if_neg (by simp [he, hp, hf])]
    rcases hitems with h | h <;> rw [h]
  · intro h
    rw [P1.payHandler]
    rw [if_pos (by rcases h with h | h | h <;> simp [h])]

/-- Witness for C6's amended theorem at concrete requests. -/
theorem c6_validation_amended_witness :
    P1.payHandler ⟨none, some [], none, some (strOf "1"), some (strOf "e@x"), some (strOf "n")⟩
      = P1.PayResult.badRequest (strOf "Cart is empty or invalid.") ∧
    P1.payHandler ⟨none, some [], none, some (strOf "1"), none, some (strOf "n")⟩
      = P1.PayResult.badRequest (strOf "Missing customer details.") :=
  ⟨(c6_validation_amended _).1 (by decide) (by decide) (by decide) (Or.inr rfl),
   (c6_validation_amended _).2 (Or.inl (by decide))⟩

/-! ## Numeric helper lemmas -/

theorem JNum.round_val (a : JNum) : JNum.round a = ⌊JNum.val a + 1 / 2⌋ := by
  rw [JNum.round, JNum.floorInt_val, JNum.val_add]
  norm_num [JNum.val]

theorem floor_int_add_half (k : ℤ) : ⌊(k : ℚ) + 1 / 2⌋ = k := by
  rw [Int.floor_eq_iff]
  constructor
  · linarith
  · linarith

theorem normalizeItem_quantity_pos (it : JObj) (idx : ℕ) :
    0 < (P1.normalizeItem it idx).quantity.m := by
  rw [P1.normalizeItem]
  simp only
  cases h : jsNumber (jget it (strOf "quantity")) with
  | none => norm_num [JNum.ofInt]
  | some q =>
    by_cases hb : JNum.blt (JNum.ofInt 0) q = true
    · simp only [hb, if_true]
      rw [JNum.blt] at hb
      simp [JNum.ofInt] at hb
      exact hb
    · simp only [Bool.not_eq_true] at hb
      simp only [JNum.ofInt] at hb ⊢
      simp [hb]

/- A membership inverse for `mapIdx` (enough for the invariants here). -/
theorem mem_mapIdx_exists {α β : Type} (f : ℕ → α → β) :
    ∀ (l : List α) (b : β), b ∈ l.mapIdx f → ∃ i a, a ∈ l ∧ b = f i a := by
  intro l
  induction l generalizing f with
  | nil => intro b h; simp at h
  | cons x xs ih =>
    intro b h
    rw [List.mapIdx_cons] at h
    rcases List.mem_cons.mp h with h | h
    · exact ⟨0, x, List.mem_cons_self x xs, h⟩
    · obtain ⟨i, a, ha, hb⟩ := ih (fun i => f (i + 1)) b h
      exact ⟨i + 1, a, List.mem_cons_of_mem x ha, hb⟩

theorem normalizeCart_quantity_pos (items : List JObj) :
    ∀ it ∈ P1.normalizeCart items, 0 < it.quantity.m := by
  intro it hmem
  obtain ⟨i, a, _, hb⟩ := mem_mapIdx_exists _ items it hmem
  rw [hb]
  exact normalizeItem_quantity_pos a i

theorem computedTotal_val (ns : List P1.NItem) (h : ∀ it ∈ ns, it.quantity.m ≠ 0) :
    JNum.val (P1.computedTotal ns) =
      (ns.map fun it => JNum.val it.price * JNum.val it.quantity).sum := by
  have hgen : ∀ (l : List P1.NItem) (acc : JNum), (∀ it ∈ l, it.quantity.m ≠ 0) →
      JNum.val (l.foldl (fun s it =>
          JNum.add s (JNum.mul it.price (P1.jsOrNum it.quantity (JNum.ofInt 1)))) acc) =
        JNum.val acc + (l.map fun it => JNum.val it.price * JNum.val it.quantity).sum := by
    intro l
    induction l with
    | nil => intro acc _; simp
    | cons x xs ih =>
      intro acc hq
      rw [List.foldl_cons, ih _ (fun it hit => hq it (List.mem_cons_of_mem x hit))]
      have hx : P1.jsOrNum x.quantity (JNum.ofInt 1) = x.quantity := by
        rw [P1.jsOrNum, if_neg (hq x (List.mem_cons_self x xs))]
      rw [hx, JNum.val_add, JNum.val_mul]
      simp
      ring
  rw [P1.computedTotal, hgen ns (JNum.ofInt 0) h]
  simp [JNum.ofInt, JNum.val]

/-! ## Claim C8 — normalized quantity -/

/-- C8 counterexample: a raw quantity of 0.5 is a positive number, so it is
kept by normalization: the normalized quantity has value 1/2, which is not
an integer greater than or equal to 1, contradicting the claim's
"quantity is an integer ≥ 1". -/
theorem c8_counterexample :
    (P1.normalizeItem [(strOf "quantity", JVal.vnum ⟨5, 1⟩)] 0).quantity = ⟨5, 1⟩ ∧
    JNum.val ⟨5, 1⟩ = 1 / 2 ∧
    ¬(∃ n : ℤ, JNum.val ⟨5, 1⟩ = (n : ℚ) ∧ 1 ≤ n) := by
  refine ⟨by decide, by norm_num [JNum.val], ?_⟩
  rintro ⟨n, hn, h1⟩
  rw [show JNum.val ⟨5, 1⟩ = 1 / 2 by norm_num [JNum.val]] at hn
  have : (1 : ℚ) ≤ (n : ℚ) := by exact_mod_cast h1
  linarith [hn]

/-- C8 (amended): for every raw cart item, the normalized quantity is a
positive number — it equals the raw quantity whenever that coerces to a
number strictly greater than 0 (integral or not), and equals 1 whenever the
raw quantity field is absent or not a positive number.  It is not
guaranteed to be an integer: fractional positive raw quantities are kept. -/
theorem c8_quantity_amended (it : JObj) (idx : ℕ) :
    0 < JNum.val (P1.normalizeItem it idx).quantity ∧
    (∀ q, jsNumber (jget it (strOf "quantity")) = some q →
      (JNum.blt (JNum.ofInt 0) q = true → (P1.normalizeItem it idx).quantity = q) ∧
      (JNum.blt (JNum.ofInt 0) q = false →
        (P1.normalizeItem it idx).quantity = JNum.ofInt 1)) ∧
    (jsNumber (jget it (strOf "quantity")) = none →
      (P1.normalizeItem it idx).quantity = JNum.ofInt 1) := by
  refine ⟨?_, ?_, ?_⟩
  · have hm := normalizeItem_quantity_pos it idx
    set q := (P1.normalizeItem it idx).quantity with hq
    rw [JNum.val]
    positivity
  · intro q hq
    constructor
    · intro hb
      rw [P1.normalizeItem]
      simp only [hq, hb, if_true]
    · intro hb
      rw [P1.normalizeItem]
      simp only [hq, hb]
      simp
  · intro hq
    rw [P1.normalizeItem]
    simp only [hq]

/-- Witness for C8's amended theorem: raw quantity 5 is kept, raw quantity
-3 falls back to 1, an absent quantity falls back to 1. -/
theorem c8_quantity_amended_witness :
    (P1.normalizeItem [(strOf "quantity", JVal.vnum ⟨5, 0⟩)] 0).quantity = ⟨5, 0⟩ ∧
    (P1.normalizeItem [(strOf "quantity", JVal.vnum ⟨-3, 0⟩)] 0).quantity = JNum.ofInt 1 ∧
    (P1.normalizeItem [] 0).quantity = JNum.ofInt 1 :=
  ⟨((c8_quantity_amended _ 0).2.1 ⟨5, 0⟩ (by decide)).1 (by decide),
   ((c8_quantity_amended _ 0).2.1 ⟨-3, 0⟩ (by decide)).2 (by decide),
   (c8_quantity_amended _ 0).2.2 (by decide)⟩

/-! ## Claim C4 — `totalAmount` -/

/-- C4: `/pay`'s `totalAmount` equals the client-declared amount whenever it
coerces to a (finite) number strictly greater than zero, and otherwise
(absent, NaN, zero or negative) equals the sum of `price × quantity` over
the normalized items; in particular the cart
`[{price:50, quantity:2}, {price:30, quantity:1}]` gives 130 without a
client amount and 999 with client amount 999. -/
theorem c4_total_amount (amount : Option JVal) (items : List JObj) :
    ((∀ a, jsNumber amount = some a → JNum.blt (JNum.ofInt 0) a = true →
      P1.totalAmount amount (P1.normalizeCart items) = a) ∧
    ((jsNumber amount = none ∨
        (∃ a, jsNumber amount = some a ∧ JNum.blt (JNum.ofInt 0) a = false)) →
      JNum.val (P1.totalAmount amount (P1.normalizeCart items)) =
        ((P1.normalizeCart items).map fun it =>
          JNum.val it.price * JNum.val it.quantity).sum)) ∧
    P1.totalAmount none (P1.normalizeCart
      [[(strOf "price", JVal.vnum ⟨50, 0⟩), (strOf "quantity", JVal.vnum ⟨2, 0⟩)],
       [(strOf "price", JVal.vnum ⟨30, 0⟩), (strOf "quantity", JVal.vnum ⟨1, 0⟩)]])
      = ⟨130, 0⟩ ∧
    P1.totalAmount (some (JVal.vnum ⟨999, 0⟩)) (P1.normalizeCart
      [[(strOf "price", JVal.vnum ⟨50, 0⟩), (strOf "quantity", JVal.vnum ⟨2, 0⟩)],
       [(strOf "price", JVal.vnum ⟨30, 0⟩), (strOf "quantity", JVal.vnum ⟨1, 0⟩)]])
      = ⟨999, 0⟩ := by
  refine ⟨⟨?_, ?_⟩, by decide, by decide⟩
  · intro a ha hb
    rw [P1.totalAmount, ha]
    simp [hb]
  · intro h
    have hval : P1.totalAmount amount (P1.normalizeCart items) =
        P1.computedTotal (P1.normalizeCart items) := by
      rw [P1.totalAmount]
      rcases h with h | ⟨a, ha, hb⟩
      · rw [h]
      · rw [ha]
        simp [hb]
    rw [hval]
    exact computedTotal_val _ fun it hit =>
      ne_of_gt (normalizeCart_quantity_pos items it hit)

/-- Witness for C4 at the claim's concrete cart: a positive client amount
wins; otherwise the item sum is taken. -/
theorem c4_total_amount_witness :
    P1.totalAmount (some (JVal.vnum ⟨999, 0⟩)) (P1.normalizeCart
      [[(strOf "price", JVal.vnum ⟨50, 0⟩), (strOf "quantity", JVal.vnum ⟨2, 0⟩)]])
      = ⟨999, 0⟩ ∧
    JNum.val (P1.totalAmount none (P1.normalizeCart
      [[(strOf "price", JVal.vnum ⟨50, 0⟩), (strOf "quantity", JVal.vnum ⟨2, 0⟩)]]))
      = ((P1.normalizeCart
          [[(strOf "price", JVal.vnum ⟨50, 0⟩), (strOf "quantity", JVal.vnum ⟨2, 0⟩)]]).map
            fun it => JNum.val it.price * JNum.val it.quantity).sum :=
  ⟨(c4_total_amount (some (JVal.vnum ⟨999, 0⟩)) _).1.1 ⟨999, 0⟩ (by decide) (by decide),
   (c4_total_amount none _).1.2 (Or.inl rfl)⟩

/-! ## Claim C7 — minor currency units -/

/-- C7: the initiation handler sends the gateway
`Math.round(totalAmount × 100)` — exactly `100 × totalAmount` whenever the
total is integral — and the receipt dispatcher reports the gateway's
minor-unit amount divided by 100: for every integer minor-unit amount `n`
the receipt amount is exactly `n / 100`, and minor-unit 15000 gives 150. -/
theorem c7_minor_units (amount : Option JVal) (ns : List P1.NItem) :
    (P1.initAmount amount ns = ⌊JNum.val (P1.totalAmount amount ns) * 100 + 1 / 2⌋) ∧
    (∀ t : ℤ, P1.totalAmount amount ns = JNum.ofInt t →
      P1.initAmount amount ns = 100 * t) ∧
    (∀ n : ℤ, JNum.val (P1.amountRand (some (JNum.ofInt n))) = (n : ℚ) / 100) ∧
    P1.amountRand (some (JNum.ofInt 15000)) = ⟨150, 0⟩ := by
  refine ⟨?_, ?_, ?_, by decide⟩
  · rw [P1.initAmount, JNum.round_val, JNum.val_mul]
    norm_num [JNum.val_ofInt]
  · intro t ht
    rw [P1.initAmount, ht, JNum.round_val, JNum.val_mul, JNum.val_ofInt, JNum.val_ofInt]
    have hc : (t : ℚ) * ((100 : ℤ) : ℚ) + 1 / 2 = ((100 * t : ℤ) : ℚ) + 1 / 2 := by
      push_cast
      ring
    rw [hc, floor_int_add_half (100 * t)]
  · intro n
    rw [P1.amountRand]
    simp only [Option.getD_some]
    rw [P1.toFixed2, JNum.val_norm, JNum.round_val, JNum.val_mul, JNum.val_ofInt,
      JNum.val_divPow10, JNum.val_ofInt]
    have hc : (n : ℚ) / 10 ^ 2 * ((100 : ℤ) : ℚ) + 1 / 2 = ((n : ℤ) : ℚ) + 1 / 2 := by
      push_cast
      ring
    rw [hc, floor_int_add_half n]
    norm_num

/-- Witness for C7: a one-item cart with integral total 150 is sent as
15000 minor units, and gateway amount 15000 is reported as 150.00 rand. -/
theorem c7_minor_units_witness :
    P1.initAmount none (P1.normalizeCart [[(strOf "price", JVal.vnum ⟨150, 0⟩)]]) = 100 * 150 ∧
    JNum.val (P1.amountRand (some (JNum.ofInt 15000))) = ((15000 : ℤ) : ℚ) / 100 :=
  ⟨(c7_minor_units none (P1.normalizeCart [[(strOf "price", JVal.vnum ⟨150, 0⟩)]])).2.1
      150 (by decide),
   (c7_minor_units none []).2.2.1 15000⟩

/-! ## Claims C5 and C9 — `describeItem` -/

theorem jget_filter_self (o : JObj) (key : Str) :
    jget (o.filter fun kv => decide (kv.1 ≠ key)) key = none := by
  induction o with
  | nil => rfl
  | cons kv rest ih =>
    rw [List.filter_cons]
    by_cases hk : kv.1 = key
    · rw [if_neg (by simp [hk])]
      exact ih
    · rw [if_pos (by simp [hk])]
      simp only [jget]
      rw [if_neg hk]
      exact ih

theorem jget_filter_ne (o : JObj) (key k : Str) (h : k ≠ key) :
    jget (o.filter fun kv => decide (kv.1 ≠ key)) k = jget o k := by
  induction o with
  | nil => rfl
  | cons kv rest ih =>
    rw [List.filter_cons]
    by_cases hk : kv.1 = key
    · have hne : kv.1 ≠ k := fun e => h (e ▸ hk)
      rw [if_neg (by simp [hk]), ih]
      simp only [jget]
      rw [if_neg hne]
    · rw [if_pos (by simp [hk])]
      simp only [jget]
      by_cases hkk : kv.1 = k
      · rw [if_pos hkk, if_pos hkk]
      · rw [if_neg hkk, if_neg hkk, ih]

theorem filter_through_erase (o : JObj) (key : Str) (p : Str × JVal → Bool)
    (hp : ∀ kv, p kv = true → kv.1 ≠ key) :
    o.filter p = (o.filter fun kv => decide (kv.1 ≠ key)).filter p := by
  induction o with
  | nil => rfl
  | cons kv rest ih =>
    rw [List.filter_cons, List.filter_cons]
    by_cases hk : kv.1 = key
    · have hpf : p kv = false := by
        cases h2 : p kv
        · rfl
        · exact absurd hk (hp kv h2)
      rw [if_neg (by simp [hpf]), if_neg (by simp [hk])]
      exact ih
    · cases h2 : p kv
      · rw [if_neg (by simp [h2]), if_pos (by simp [hk]), List.filter_cons,
          if_neg (by simp [h2])]
        exact ih
      · rw [if_pos (by simp [h2]), if_pos (by simp [hk]), List.filter_cons,
          if_pos (by simp [h2]), ih]

/-- C5 counterexample: the simplified `describeItem` of the last index.js
revision (lines 395–411) has no placeholder guard — for the raw item
`{preset: "Item 2"}`, whose preset is a placeholder by `isPlaceholder`, it
renders `"Preset: " ++ "Item 2"`, exposing the placeholder value verbatim
in the description, which the claim says is excluded. -/
theorem c5_counterexample :
    Srv.isPlaceholder (JVal.vstr (strOf "Item 2")) = true ∧
    V3.describeItem (JItem.jobj [(strOf "preset", JVal.vstr (strOf "Item 2"))]) 1
      = strOf "Preset: " ++ strOf "Item 2" := by decide

/-- C5 (amended): for the `describeItem` that carries the `isPlaceholder`
guard (part_000 and index.js lines 198–240), a preset matching
`"item" + digits` case-insensitively modulo surrounding whitespace has no
effect on the rendered description — the output equals the output on the
item with the preset entry removed, so the placeholder value is excluded.
The simplified `describeItem` at index.js lines 395–411 renders it instead. -/
theorem c5_placeholder_amended (o : JObj) (idx : ℕ) (s : Str)
    (hget : jget o (strOf "preset") = some (JVal.vstr s))
    (hph : Srv.isPlaceholder (JVal.vstr s) = true) :
    Srv.describeItem (JItem.jobj o) idx =
      Srv.describeItem (JItem.jobj (o.filter fun kv => decide (kv.1 ≠ strOf "preset"))) idx := by
  have hkp : Srv.knownParts o =
      Srv.knownParts (o.filter fun kv => decide (kv.1 ≠ strOf "preset")) := by
    rw [Srv.knownParts, Srv.knownParts]
    apply List.filterMap_congr
    intro kl hkl
    by_cases hpk : kl.1 = strOf "preset"
    · rw [hpk, hget, jget_filter_self]
      simp [hph]
    · rw [jget_filter_ne _ _ _ hpk]
  have hfb : Srv.fallbackParts o =
      Srv.fallbackParts (o.filter fun kv => decide (kv.1 ≠ strOf "preset")) := by
    rw [Srv.fallbackParts, Srv.fallbackParts,
      ← filter_through_erase o (strOf "preset") Srv.fallbackPred ?hp]
    case hp =>
      intro kv h e
      rw [Srv.fallbackPred] at h
      rw [e] at h
      rw [show Srv.skipKeys.contains (strOf "preset") = true from by decide] at h
      simp at h
  simp only [Srv.describeItem]
  rw [hkp, hfb]

/-- Witness for C5's amended theorem: with a placeholder preset and a mug
color, the description is the same as without the preset entry. -/
theorem c5_placeholder_amended_witness :
    Srv.describeItem (JItem.jobj [(strOf "preset", JVal.vstr (strOf "Item 2")),
        (strOf "mugColor", JVal.vstr (strOf "Red"))]) 1 =
      Srv.describeItem (JItem.jobj
        ([(strOf "preset", JVal.vstr (strOf "Item 2")),
          (strOf "mugColor", JVal.vstr (strOf "Red"))].filter
          fun kv => decide (kv.1 ≠ strOf "preset"))) 1 :=
  c5_placeholder_amended _ 1 (strOf "Item 2") (by decide) (by decide)

/-- C9 counterexample: the raw item `{flavor: "Mint"}` has none of the ten
known descriptive fields, yet `describeItem` (part_000 and index.js lines
198–240) renders its unknown-field fallback `"Flavor: Mint"` instead of the
`"Item 1"` the claim requires. -/
theorem c9_counterexample :
    (∀ kl ∈ Srv.knownFields, jget [(strOf "flavor", JVal.vstr (strOf "Mint"))] kl.1 = none) ∧
    Srv.describeItem (JItem.jobj [(strOf "flavor", JVal.vstr (strOf "Mint"))]) 1
      = strOf "Flavor: Mint" ∧
    strOf "Flavor: Mint" ≠ strOf "Item 1" := by decide

/-- C9 (amended): `describeItem` applied with a 1-based index returns
`"Item {index}"` for every raw object item that has none of the ten known
descriptive fields and whose remaining entries are all skippable — key in
the reserved skip set, or null value, or blank `String(v)`.  An unknown
non-blank field is rendered by the fallback instead. -/
theorem c9_fallback_amended (o : JObj) (idx : ℕ)
    (hknown : ∀ kl ∈ Srv.knownFields, jget o kl.1 = none)
    (hrest : ∀ kv ∈ o, kv.1 ∈ Srv.skipKeys ∨ kv.2 = JVal.vnull ∨
      trim (jsStringOf kv.2) = []) :
    Srv.describeItem (JItem.jobj o) idx = strOf "Item " ++ natDigits idx := by
  have hkp : Srv.knownParts o = [] := by
    rw [Srv.knownParts, List.filterMap_eq_nil_iff]
    intro kl hkl
    rw [hknown kl hkl]
  have hfb : Srv.fallbackParts o = [] := by
    rw [Srv.fallbackParts]
    have hfil : o.filter Srv.fallbackPred = [] := by
      rw [List.filter_eq_nil_iff]
      intro kv hkv
      rcases hrest kv hkv with h | h | h
      · simp [Srv.fallbackPred]
        intro hnm
        exact absurd h hnm
      · simp [Srv.fallbackPred, h]
      · simp [Srv.fallbackPred, h]
    rw [hfil]
    rfl
  simp only [Srv.describeItem]
  rw [hkp, hfb]
  simp

/-- Witness for C9's amended theorem: an item carrying only skip-set keys
falls back to `"Item 1"`. -/
theorem c9_fallback_amended_witness :
    Srv.describeItem (JItem.jobj [(strOf "quantity", JVal.vnum ⟨2, 0⟩),
      (strOf "price", JVal.vnum ⟨5, 0⟩)]) 1 = strOf "Item " ++ natDigits 1 :=
  c9_fallback_amended _ 1 (by decide) (by decide)

/-! ## Claim C10 — sanitization in `normalizeCart` -/

theorem dropPreCI_suffix : ∀ (p s r : Str), dropPreCI p s = some r → ∃ u, s = u ++ r := by
  intro p
  induction p with
  | nil =>
    intro s r h
    simp [dropPreCI] at h
    exact ⟨[], by rw [h]; rfl⟩
  | cons x ps ih =>
    intro s r h
    cases s with
    | nil => simp [dropPreCI] at h
    | cons c cs =>
      rw [dropPreCI] at h
      by_cases hc : Char.toLower c = Char.toLower x
      · rw [if_pos hc] at h
        obtain ⟨u, hu⟩ := ih cs r h
        exact ⟨c :: u, by rw [hu]; rfl⟩
      · rw [if_neg hc] at h
        exact absurd h (by simp)

theorem hasTag_stripLabelStr (s label : Str) : hasTag (P1.stripLabelStr s label) = false := by
  have hclean : hasTag (P1.stripTagsStr s) = false := by
    rw [P1.stripTagsStr]
    exact hasTag_trim _ (hasTag_stripTagsCore s.length s le_rfl)
  rw [P1.stripLabelStr]
  by_cases hl : label.isEmpty
  · simp only [hl, if_true]
    exact hclean
  · simp only [hl, Bool.false_eq_true, if_false]
    cases hdp : dropPreCI label (P1.stripTagsStr s) with
    | none => exact hclean
    | some r =>
      show hasTag (match trimL r with
        | c :: r3 => if c = ':' then trim (List.dropWhile isWsChar r3) else P1.stripTagsStr s
        | [] => P1.stripTagsStr s) = false
      cases htl : trimL r with
      | nil => exact hclean
      | cons c r3 =>
        show hasTag (if c = ':' then trim (List.dropWhile isWsChar r3)
          else P1.stripTagsStr s) = false
        by_cases hc : c = ':'
        · rw [if_pos hc]
          subst hc
          obtain ⟨u1, hu1⟩ := dropPreCI_suffix label (P1.stripTagsStr s) r hdp
          have hu2 : r = r.takeWhile isWsChar ++ ':' :: r3 := by
            conv_lhs => rw [← List.takeWhile_append_dropWhile isWsChar r]
            rw [show List.dropWhile isWsChar r = ':' :: r3 from htl]
          have hu3 : r3 = r3.takeWhile isWsChar ++ List.dropWhile isWsChar r3 :=
            (List.takeWhile_append_dropWhile isWsChar r3).symm
          obtain ⟨u4, v4, hu4⟩ := trim_middle (List.dropWhile isWsChar r3)
          have hmid : P1.stripTagsStr s =
              (u1 ++ r.takeWhile isWsChar ++ [':'] ++ r3.takeWhile isWsChar ++ u4) ++
                trim (List.dropWhile isWsChar r3) ++ v4 := by
            rw [hu1]
            conv_lhs => rw [hu2]
            conv_lhs => rw [hu3]
            conv_lhs => rw [hu4]
            simp
          rw [hmid] at hclean
          exact hasTag_of_middle _ _ _ hclean
        · rw [if_neg hc]
          exact hclean

theorem hasTag_stripLabel (v : Option JVal) (label : Str) :
    hasTag (P1.stripLabel v label) = false := by
  cases v with
  | none => exact hasTag_stripLabelStr [] label
  | some w => exact hasTag_stripLabelStr (jsStringOf w) label

/-- C10 counterexample: `stripLabel` removes only one leading label prefix,
so the raw preset `"Preset: Preset: Blue"` normalizes to `"Preset: Blue"`,
which begins with its own field label; and stray angle brackets in two
separate fields combine inside the derived `_name` into a substring
matching the tag pattern `<[^>]+>`, so the `_name` built from tag-free
fields is not itself tag-free. -/
theorem c10_counterexample :
    (P1.normalizeItem [(strOf "preset", JVal.vstr (strOf "Preset: Preset: Blue"))] 0).preset
      = strOf "Preset: Blue" ∧
    isPre (strOf "Preset:") (strOf "Preset: Blue") = true ∧
    hasTag (P1.normalizeItem [(strOf "preset", JVal.vstr (strOf "a<")),
      (strOf "handleType", JVal.vstr (strOf "b>c"))] 0).name = true := by decide

/-- C10 (amended): `normalizeCart` strips HTML tags from every known text
field — no normalized `preset`/`handleType`/`mugType`/`mugColor`/
`replacementName` contains a substring matching the tag pattern `<[^>]+>` —
and removes one leading `"{Label}:"` prefix from it.  Nothing more holds:
a doubled label survives once (the anchored label regex is applied once,
not iterated), and the `_name`/metadata text, a concatenation of fields,
can contain a tag-shaped substring when different fields carry stray `<`
and `>`. -/
theorem c10_strip_amended (it : JObj) (idx : ℕ) :
    hasTag (P1.normalizeItem it idx).preset = false ∧
    hasTag (P1.normalizeItem it idx).handleType = false ∧
    hasTag (P1.normalizeItem it idx).mugType = false ∧
    hasTag (P1.normalizeItem it idx).mugColor = false ∧
    hasTag (P1.normalizeItem it idx).replacementName = false :=
  ⟨hasTag_stripLabel _ _, hasTag_stripLabel _ _, hasTag_stripLabel _ _,
   hasTag_stripLabel _ _, hasTag_stripLabel _ _⟩

/-! ## Claim C1 — metadata round trip -/

/-- C1 counterexample: for the cart `[{preset:"Floral", quantity:2,
price:50}]`, encoding produces `"Item 1: Preset: Floral (x2) @ R50"`; the
webhook fallback decoder recovers quantity 2 and price 50, but the decoded
name is `"Item 1: Preset: Floral"` — the `"Item {i}: "` position label is
never removed — while the original description is `"Preset: Floral"`, so
the description is not preserved exactly. -/
theorem c1_counterexample :
    (P1.normalizeCart [[(strOf "preset", JVal.vstr (strOf "Floral")),
        (strOf "quantity", JVal.vnum ⟨2, 0⟩),
        (strOf "price", JVal.vnum ⟨50, 0⟩)]]).map (fun it => it.name)
      = [strOf "Preset: Floral"] ∧
    P1.cartItemsForMetadata (P1.normalizeCart [[(strOf "preset", JVal.vstr (strOf "Floral")),
        (strOf "quantity", JVal.vnum ⟨2, 0⟩),
        (strOf "price", JVal.vnum ⟨50, 0⟩)]])
      = strOf "Item 1: Preset: Floral (x2) @ R50" ∧
    P1.itemsArrayOfString (strOf "Item 1: Preset: Floral (x2) @ R50")
      = [⟨strOf "Item 1: Preset: Floral", ⟨2, 0⟩, ⟨50, 0⟩⟩] ∧
    strOf "Item 1: Preset: Floral" ≠ strOf "Preset: Floral" := by decide

/-! ### Character and scanning lemmas for the round-trip proof -/

theorem ne_of_digit {c x : Char} (hc : c.isDigit = true) (hx : x.isDigit = false) :
    c ≠ x := fun e => by rw [e, hx] at hc; exact absurd hc (by simp)

theorem takeWhile_append_all {p : Char → Bool} :
    ∀ (a b : Str), (∀ c ∈ a, p c = true) →
      List.takeWhile p (a ++ b) = a ++ List.takeWhile p b := by
  intro a
  induction a with
  | nil => intro b _; rfl
  | cons x a' ih =>
    intro b h
    rw [List.cons_append, List.takeWhile_cons, if_pos (h x (List.mem_cons_self x a'))]
    rw [ih b fun c hc => h c (List.mem_cons_of_mem x hc)]
    rfl

theorem dropWhile_append_all {p : Char → Bool} :
    ∀ (a b : Str), (∀ c ∈ a, p c = true) →
      List.dropWhile p (a ++ b) = List.dropWhile p b := by
  intro a
  induction a with
  | nil => intro b _; rfl
  | cons x a' ih =>
    intro b h
    rw [List.cons_append, List.dropWhile_cons, if_pos (h x (List.mem_cons_self x a'))]
    exact ih b fun c hc => h c (List.mem_cons_of_mem x hc)

theorem takeWhile_cons_false {p : Char → Bool} {c : Char} (l : Str) (h : p c = false) :
    List.takeWhile p (c :: l) = [] := by
  rw [List.takeWhile_cons, if_neg (by simp [h])]

theorem dropWhile_cons_false {p : Char → Bool} {c : Char} (l : Str) (h : p c = false) :
    List.dropWhile p (c :: l) = c :: l := by
  rw [List.dropWhile_cons, if_neg (by simp [h])]

/- `findQty` ignores a `(`-free prefix. -/
theorem findQty_append (a : Str) (l : Str) (h : '(' ∉ a) :
    P1.findQty (a ++ l) = P1.findQty l := by
  induction a with
  | nil => rfl
  | cons c a' ih =>
    have hc : c ≠ '(' := fun e => h (e ▸ List.mem_cons_self c a')
    rw [List.cons_append, P1.findQty, if_neg hc]
    exact ih fun m => h (List.mem_cons_of_mem c m)

/- `findPrice` ignores an `@`-free prefix. -/
theorem findPrice_append (a : Str) (l : Str) (h : '@' ∉ a) :
    P1.findPrice (a ++ l) = P1.findPrice l := by
  induction a with
  | nil => rfl
  | cons c a' ih =>
    have hc : c ≠ '@' := fun e => h (e ▸ List.mem_cons_self c a')
    rw [List.cons_append, P1.findPrice, if_neg hc]
    exact ih fun m => h (List.mem_cons_of_mem c m)

/- `removeQtyPrice` copies a `(`-free prefix verbatim. -/
theorem removeQtyPrice_append (a : Str) (l : Str) (h : '(' ∉ a) :
    P1.removeQtyPrice (a ++ l) = a ++ P1.removeQtyPrice l := by
  induction a with
  | nil => rfl
  | cons c a' ih =>
    have hc : c ≠ '(' := fun e => h (e ▸ List.mem_cons_self c a')
    rw [List.cons_append, P1.removeQtyPrice, if_neg hc]
    rw [ih fun m => h (List.mem_cons_of_mem c m)]
    rfl

theorem takeWhile_all {p : Char → Bool} (l : Str) (h : ∀ c ∈ l, p c = true) :
    List.takeWhile p l = l := by
  have := takeWhile_append_all l [] h
  simpa using this

theorem dropWhile_all {p : Char → Bool} (l : Str) (h : ∀ c ∈ l, p c = true) :
    List.dropWhile p l = [] := by
  have := dropWhile_append_all l [] h
  simpa using this

theorem padZeros_all_digits (k : ℕ) (ds : Str) (h : ∀ c ∈ ds, c.isDigit = true) :
    ∀ c ∈ padZeros k ds, c.isDigit = true := by
  intro c hc
  rw [padZeros] at hc
  rcases List.mem_append.mp hc with hc | hc
  · rw [List.eq_of_mem_replicate hc]
    decide
  · exact h c hc

theorem numToStrNN_chars (m e : ℕ) : ∀ c ∈ numToStrNN m e, c.isDigit = true ∨ c = '.' := by
  intro c hc
  rw [numToStrNN] at hc
  by_cases he : e = 0
  · rw [if_pos he] at hc
    exact Or.inl (natDigits_all_digits m c hc)
  · rw [if_neg he] at hc
    rcases List.mem_append.mp hc with hc | hc
    · exact Or.inl (natDigits_all_digits _ c hc)
    · rcases List.mem_cons.mp hc with hc | hc
      · exact Or.inr hc
      · exact Or.inl (padZeros_all_digits e _ (natDigits_all_digits _) c hc)

theorem numToStr_chars (a : JNum) (hm : 0 ≤ a.m) :
    ∀ c ∈ numToStr a, c.isDigit = true ∨ c = '.' := by
  intro c hc
  rw [numToStr, if_neg (by omega : ¬a.m < 0)] at hc
  exact numToStrNN_chars _ _ c hc

theorem numToStrNN_ne_nil (m e : ℕ) : numToStrNN m e ≠ [] := by
  rw [numToStrNN]
  by_cases he : e = 0
  · rw [if_pos he]
    exact natDigits_ne_nil m
  · rw [if_neg he]
    simp [natDigits_ne_nil]

theorem numToStr_ne_nil (a : JNum) (hm : 0 ≤ a.m) : numToStr a ≠ [] := by
  rw [numToStr, if_neg (by omega : ¬a.m < 0)]
  exact numToStrNN_ne_nil _ _

/- Parsing the capture `([0-9]+(?:\.[0-9]+)?)` back from a rendered
canonical non-negative decimal recovers the number exactly. -/
theorem matchPriceAfter_numToStr (a : JNum) (hm : 0 ≤ a.m) (hc : JNum.canon a = true) :
    P1.matchPriceAfter (' ' :: 'R' :: numToStr a) = some a := by
  rw [numToStr, if_neg (by omega : ¬a.m < 0)]
  rw [P1.matchPriceAfter]
  rw [if_pos (Or.inl rfl)]
  by_cases he : a.e = 0
  · rw [numToStrNN, if_pos he]
    rw [takeWhile_all _ (natDigits_all_digits a.m.toNat)]
    rw [if_neg (by simp [natDigits_ne_nil])]
    rw [dropWhile_all _ (natDigits_all_digits a.m.toNat)]
    rw [parseDecChars_nil, ofDigitsChar_natDigits, Int.toNat_of_nonneg hm]
    cases a with
    | mk m e =>
      simp only at he
      rw [he]
  · rw [numToStrNN, if_neg he]
    rw [takeWhile_append_all _ _ (natDigits_all_digits _),
      takeWhile_cons_false _ (by decide : Char.isDigit '.' = false)]
    rw [List.append_nil]
    rw [if_neg (by simp [natDigits_ne_nil])]
    rw [dropWhile_append_all _ _ (natDigits_all_digits _),
      dropWhile_cons_false _ (by decide : Char.isDigit '.' = false)]
    show (if (List.takeWhile Char.isDigit
          (padZeros a.e (natDigits (a.m.toNat % 10 ^ a.e)))).isEmpty = true
        then some (parseDecChars (natDigits (a.m.toNat / 10 ^ a.e)) [])
        else some (parseDecChars (natDigits (a.m.toNat / 10 ^ a.e))
          (List.takeWhile Char.isDigit (padZeros a.e (natDigits (a.m.toNat % 10 ^ a.e))))))
      = some a
    rw [takeWhile_all _ (padZeros_all_digits a.e _ (natDigits_all_digits _))]
    have hplen : (padZeros a.e (natDigits (a.m.toNat % 10 ^ a.e))).length = a.e := by
      apply padZeros_length
      exact natDigits_length_le a.e _ (Nat.pos_of_ne_zero he)
        (Nat.mod_lt _ (by positivity))
    rw [if_neg (by
      intro hemp
      rw [List.isEmpty_iff] at hemp
      rw [hemp] at hplen
      simp at hplen
      exact he hplen.symm)]
    rw [parseDecChars_decomp _ _ he, Int.toNat_of_nonneg hm]
    cases a with
    | mk m e => exact congrArg some (JNum.norm_eq_self hc)

/- Parsing the quantity capture `(\d+)` back from a rendered canonical
integer recovers it. -/
theorem matchQtyAfter_encoded (a : JNum) (he : a.e = 0) (hm : 0 ≤ a.m) (rest : Str) :
    P1.matchQtyAfter ('x' :: (numToStr a ++ ')' :: rest)) = some a.m.toNat := by
  rw [numToStr, if_neg (by omega : ¬a.m < 0), numToStrNN, if_pos he]
  rw [P1.matchQtyAfter]
  rw [if_pos (Or.inl rfl)]
  rw [takeWhile_append_all _ _ (natDigits_all_digits _),
    takeWhile_cons_false _ (by decide : Char.isDigit ')' = false)]
  rw [List.append_nil]
  rw [if_neg (by simp [natDigits_ne_nil])]
  rw [dropWhile_append_all _ _ (natDigits_all_digits _),
    dropWhile_cons_false _ (by decide : Char.isDigit ')' = false)]
  rw [ofDigitsChar_natDigits]
  rfl

/- The strip pattern consumes the whole encoded tail
`x{digits}) @ R{number}`. -/
theorem matchStripLen_encoded (qd pd : Str)
    (hq1 : qd ≠ []) (hq2 : ∀ c ∈ qd, c.isDigit = true)
    (hp1 : pd ≠ []) (hp2 : ∀ c ∈ pd, c.isDigit = true ∨ c = '.') :
    P1.matchStripLen ('x' :: (qd ++ ')' :: ' ' :: '@' :: ' ' :: 'R' :: pd)) =
      some ('x' :: (qd ++ ')' :: ' ' :: '@' :: ' ' :: 'R' :: pd)).length := by
  rw [P1.matchStripLen]
  rw [if_pos (Or.inl rfl)]
  rw [takeWhile_append_all _ _ hq2,
    takeWhile_cons_false _ (by decide : Char.isDigit ')' = false)]
  rw [List.append_nil]
  rw [if_neg (by simp [hq1])]
  rw [dropWhile_append_all _ _ hq2,
    dropWhile_cons_false _ (by decide : Char.isDigit ')' = false)]
  show (let ws := List.takeWhile isWsChar (' ' :: '@' :: ' ' :: 'R' :: pd);
    match List.dropWhile isWsChar (' ' :: '@' :: ' ' :: 'R' :: pd) with
    | '@' :: ' ' :: c2 :: r4 =>
      if c2 = 'R' ∨ c2 = 'r' then
        let ps := r4.takeWhile (fun d => d.isDigit || d == '.')
        if ps.isEmpty then none
        else some (1 + qd.length + 1 + ws.length + 3 + ps.length)
      else none
    | _ => none) = some ('x' :: (qd ++ ')' :: ' ' :: '@' :: ' ' :: 'R' :: pd)).length
  have hws : List.takeWhile isWsChar (' ' :: '@' :: ' ' :: 'R' :: pd) = [' '] := by
    rw [List.takeWhile_cons, if_pos (by decide)]
    rw [takeWhile_cons_false _ (by decide : isWsChar '@' = false)]
  have hdw : List.dropWhile isWsChar (' ' :: '@' :: ' ' :: 'R' :: pd) =
      '@' :: ' ' :: 'R' :: pd := by
    rw [List.dropWhile_cons, if_pos (by decide)]
    exact dropWhile_cons_false _ (by decide : isWsChar '@' = false)
  rw [hws, hdw]
  show (if ('R' : Char) = 'R' ∨ ('R' : Char) = 'r' then
      let ps := pd.takeWhile (fun d => d.isDigit || d == '.')
      if ps.isEmpty then none
      else some (1 + qd.length + 1 + ([' '] : Str).length + 3 + ps.length)
    else none) = some ('x' :: (qd ++ ')' :: ' ' :: '@' :: ' ' :: 'R' :: pd)).length
  rw [if_pos (Or.inl rfl)]
  have hps : pd.takeWhile (fun d => d.isDigit || d == '.') = pd := by
    apply takeWhile_all
    intro c hcm
    rcases hp2 c hcm with h | h
    · simp [h]
    · simp [h]
  rw [hps]
  rw [if_neg (by simp [hp1])]
  congr 1
  simp
  omega

/-! ### Trim lemmas for the decoded name -/

theorem length_dropWhile_le' {p : Char → Bool} (l : Str) :
    (List.dropWhile p l).length ≤ l.length := by
  induction l with
  | nil => simp
  | cons c rest ih =>
    rw [List.dropWhile_cons]
    by_cases h : p c = true
    · rw [if_pos h]
      simp
      omega
    · rw [if_neg (by simp [h])]

theorem trimR_eq_self_of_trim {s : Str} (h : trim s = s) : trimR s = s := by
  have h2 : (trimR s).length ≤ s.length := by
    rw [trimR]
    rw [List.length_reverse]
    calc (List.dropWhile isWsChar s.reverse).length ≤ s.reverse.length :=
          length_dropWhile_le' _
      _ = s.length := List.length_reverse s
  have h3 : s.length ≤ (trimR s).length := by
    have := congrArg List.length h
    rw [trim, trimL] at this
    calc s.length = (List.dropWhile isWsChar (trimR s)).length := this.symm
      _ ≤ (trimR s).length := length_dropWhile_le' _
  have hlen : (trimR s).length = s.length := le_antisymm h2 h3
  have hdlen : (s.reverse.dropWhile isWsChar).length = s.reverse.length := by
    rw [trimR] at hlen
    rw [List.length_reverse] at hlen
    rw [hlen, List.length_reverse]
  have htw : s.reverse.takeWhile isWsChar = [] := by
    have hsplit := List.takeWhile_append_dropWhile isWsChar s.reverse
    have hlen2 := congrArg List.length hsplit
    rw [List.length_append] at hlen2
    have : (s.reverse.takeWhile isWsChar).length = 0 := by omega
    exact List.eq_nil_of_length_eq_zero this
  have hdrop : s.reverse.dropWhile isWsChar = s.reverse := by
    conv_rhs => rw [← List.takeWhile_append_dropWhile isWsChar s.reverse]
    rw [htw]
    rfl
  rw [trimR, hdrop, List.reverse_reverse]

theorem trimR_append_ws (x : Str) : trimR (x ++ [' ']) = trimR x := by
  rw [trimR, trimR, List.reverse_append]
  show ((' ' :: x.reverse).dropWhile isWsChar).reverse = _
  rw [List.dropWhile_cons, if_pos (by decide)]

theorem trimR_append_keep (x name : Str) (hne : name ≠ []) (ht : trimR name = name) :
    trimR (x ++ name) = x ++ name := by
  have hdw : List.dropWhile isWsChar name.reverse = name.reverse := by
    have := congrArg List.reverse ht
    rw [trimR, List.reverse_reverse] at this
    exact this
  obtain ⟨c, r, hcr⟩ : ∃ c r, name.reverse = c :: r := by
    cases hnr : name.reverse with
    | nil =>
      exfalso
      have : name = [] := by
        have := congrArg List.reverse hnr
        rw [List.reverse_reverse] at this
        exact this
      exact hne this
    | cons c r => exact ⟨c, r, rfl⟩
  have hc : isWsChar c = false := by
    by_contra hcb
    have hcw : isWsChar c = true := by
      cases hx : isWsChar c
      · exact absurd hx hcb
      · rfl
    rw [hcr, List.dropWhile_cons, if_pos (by simp [hcw])] at hdw
    have := congrArg List.length hdw
    have hle : (List.dropWhile isWsChar r).length ≤ r.length := length_dropWhile_le' r
    simp at this
    omega
  rw [trimR, List.reverse_append, hcr, List.cons_append,
    List.dropWhile_cons, if_neg (by simp [hc])]
  rw [← List.cons_append, ← hcr, List.reverse_append, List.reverse_reverse,
    List.reverse_reverse]

/- One encoded line decodes to the `"Item {k}: "`-prefixed name together
with the exact quantity and price, under the side conditions of the amended
round-trip claim. -/
theorem parseCartLine_lineOf (k : ℕ) (it : P1.NItem)
    (hn1 : it.name ≠ []) (hn2 : trim it.name = it.name)
    (hn3 : '(' ∉ it.name) (hn4 : '@' ∉ it.name)
    (hqe : it.quantity.e = 0) (hqm : 1 ≤ it.quantity.m)
    (hpm : 0 ≤ it.price.m) (hpc : JNum.canon it.price = true) :
    P1.parseCartLine (P1.lineOf k it) =
      ⟨strOf "Item " ++ natDigits k ++ strOf ": " ++ it.name, it.quantity, it.price⟩ := by
  have hqm0 : (0 : ℤ) ≤ it.quantity.m := by omega
  have hqd_digits : ∀ c ∈ numToStr it.quantity, c.isDigit = true := by
    intro c hcm
    rw [numToStr, if_neg (by omega : ¬it.quantity.m < 0), numToStrNN, if_pos hqe] at hcm
    exact natDigits_all_digits _ c hcm
  have hqd_ne : numToStr it.quantity ≠ [] := numToStr_ne_nil _ hqm0
  have hpd_chars := numToStr_chars it.price hpm
  have hpd_ne : numToStr it.price ≠ [] := numToStr_ne_nil _ hpm
  have hline : P1.lineOf k it =
      (strOf "Item " ++ natDigits k ++ strOf ": " ++ it.name ++ [' ']) ++
        '(' :: 'x' :: (numToStr it.quantity ++
          ')' :: ' ' :: '@' :: ' ' :: 'R' :: numToStr it.price) := by
    have e1 : strOf " (x" = [' '] ++ ['('] ++ ['x'] := rfl
    have e2 : strOf ") @ R" = [')'] ++ [' '] ++ ['@'] ++ [' '] ++ ['R'] := rfl
    rw [P1.lineOf, e1, e2]
    simp only [List.append_assoc, List.cons_append, List.singleton_append, List.nil_append]
  have hA : '(' ∉ strOf "Item " ++ natDigits k ++ strOf ": " ++ it.name ++ [' '] := by
    intro hm2
    simp only [List.append_assoc, List.mem_append, List.mem_singleton] at hm2
    rcases hm2 with h | h | h | h | h
    · exact absurd h (by decide)
    · exact absurd (natDigits_all_digits k _ h) (by decide)
    · exact absurd h (by decide)
    · exact hn3 h
    · exact absurd h (by decide)
  have hq : P1.findQty (P1.lineOf k it) = some it.quantity.m.toNat := by
    rw [hline, findQty_append _ _ hA, P1.findQty, if_pos rfl,
      matchQtyAfter_encoded it.quantity hqe hqm0]
  have hB : '@' ∉ (strOf "Item " ++ natDigits k ++ strOf ": " ++ it.name ++ [' ']) ++
      ['('] ++ ['x'] ++ numToStr it.quantity ++ [')'] ++ [' '] := by
    intro hm2
    simp only [List.append_assoc, List.mem_append, List.mem_singleton] at hm2
    rcases hm2 with h | h | h | h | h | h | h | h | h
    · exact absurd h (by decide)
    · exact absurd (natDigits_all_digits k _ h) (by decide)
    · exact absurd h (by decide)
    · exact hn4 h
    · exact absurd h (by decide)
    · exact absurd h (by decide)
    · exact absurd h (by decide)
    · exact absurd (hqd_digits _ h) (by decide)
    · exact absurd h (by decide)
  have hline2 : P1.lineOf k it =
      ((strOf "Item " ++ natDigits k ++ strOf ": " ++ it.name ++ [' ']) ++
        ['('] ++ ['x'] ++ numToStr it.quantity ++ [')'] ++ [' ']) ++
        '@' :: (' ' :: 'R' :: numToStr it.price) := by
    rw [hline]
    simp only [List.append_assoc, List.cons_append, List.singleton_append, List.nil_append]
  have hp : P1.findPrice (P1.lineOf k it) = some it.price := by
    rw [hline2, findPrice_append _ _ hB, P1.findPrice, if_pos rfl,
      matchPriceAfter_numToStr it.price hpm hpc]
  have hrm : P1.removeQtyPrice (P1.lineOf k it) =
      strOf "Item " ++ natDigits k ++ strOf ": " ++ it.name ++ [' '] := by
    rw [hline, removeQtyPrice_append _ _ hA, P1.removeQtyPrice, if_pos rfl]
    rw [matchStripLen_encoded (numToStr it.quantity) (numToStr it.price)
      hqd_ne hqd_digits hpd_ne hpd_chars]
    show _ ++ List.drop (List.length _) _ = _
    rw [List.drop_length, List.append_nil]
  have htrim : trim (strOf "Item " ++ natDigits k ++ strOf ": " ++ it.name ++ [' ']) =
      strOf "Item " ++ natDigits k ++ strOf ": " ++ it.name := by
    rw [trim]
    rw [show strOf "Item " ++ natDigits k ++ strOf ": " ++ it.name ++ [' '] =
      ((strOf "Item " ++ natDigits k ++ strOf ": ") ++ it.name) ++ [' '] from by
        simp only [List.append_assoc, List.cons_append, List.singleton_append, List.nil_append]]
    rw [trimR_append_ws, trimR_append_keep _ _ hn1 (trimR_eq_self_of_trim hn2)]
    rw [show (strOf "Item " ++ natDigits k ++ strOf ": ") ++ it.name =
      'I' :: ((strOf "tem " ++ natDigits k ++ strOf ": ") ++ it.name) from rfl]
    rw [trimL, dropWhile_cons_false _ (by decide : isWsChar 'I' = false)]
  rw [P1.parseCartLine, hrm, htrim, hq, hp]
  show (⟨strOf "Item " ++ natDigits k ++ strOf ": " ++ it.name,
    JNum.ofInt (it.quantity.m.toNat : ℤ), it.price⟩ : P1.TItem) = _
  rw [JNum.ofInt, Int.toNat_of_nonneg hqm0, ← hqe]

/-! ### Splitting the joined metadata string back into lines -/

/- The separator `" | "` used by both the encoder and the decoder. -/
def sepBar : Str := strOf " | "

theorem isPre_length_le : ∀ (p s : Str), isPre p s = true → p.length ≤ s.length := by
  intro p
  induction p with
  | nil => intro s _; simp
  | cons c p' ih =>
    intro s h
    cases s with
    | nil =>
      rw [show isPre (c :: p') ([] : Str) = false from rfl] at h
      simp at h
    | cons d s' =>
      rw [isPre, Bool.and_eq_true] at h
      have := ih s' h.2
      simp
      omega

theorem isPre_append_self : ∀ (p t : Str), isPre p (p ++ t) = true := by
  intro p
  induction p with
  | nil => intro t; rfl
  | cons c p' ih =>
    intro t
    rw [List.cons_append, isPre, Bool.and_eq_true]
    exact ⟨by simp, ih t⟩

theorem splitSepFuel_fuel (sep : Str) (hs : sep ≠ []) :
    ∀ f f' s, List.length s ≤ f → List.length s ≤ f' →
      splitSepFuel sep f s = splitSepFuel sep f' s := by
  have hsl : 0 < sep.length := List.length_pos.mpr hs
  intro f
  induction f with
  | zero =>
    intro f' s h _
    have : s = [] := List.eq_nil_of_length_eq_zero (Nat.le_zero.mp h)
    subst this
    cases f' <;> rfl
  | succ f ih =>
    intro f' s h h'
    cases s with
    | nil => cases f' <;> rfl
    | cons c rest =>
      cases f' with
      | zero => simp at h'
      | succ g =>
        simp only [splitSepFuel]
        by_cases hp : isPre sep (c :: rest) = true
        · rw [if_pos hp, if_pos hp]
          have hd : ((c :: rest).drop sep.length).length ≤ f := by
            rw [List.length_drop, List.length_cons]
            simp at h
            omega
          have hd' : ((c :: rest).drop sep.length).length ≤ g := by
            rw [List.length_drop, List.length_cons]
            simp at h'
            omega
          rw [ih g _ hd hd']
        · rw [if_neg hp, if_neg hp]
          rw [ih g rest (by simpa using h) (by simpa using h')]

theorem splitSep_cons (sep : Str) (hs : sep ≠ []) (c : Char) (rest : Str) :
    splitSep sep (c :: rest) =
      if isPre sep (c :: rest) = true then
        [] :: splitSep sep ((c :: rest).drop sep.length)
      else
        match splitSep sep rest with
        | [] => [[c]]
        | h :: t => (c :: h) :: t := by
  have hse : sep.isEmpty = false := by
    cases sep with
    | nil => exact absurd rfl hs
    | cons a b => rfl
  rw [splitSep, if_neg (by simp [hse])]
  show splitSepFuel sep (rest.length + 1) (c :: rest) = _
  simp only [splitSepFuel]
  by_cases hp : isPre sep (c :: rest) = true
  · rw [if_pos hp, if_pos hp]
    rw [splitSep, if_neg (by simp [hse])]
    have hsl : 0 < sep.length := List.length_pos.mpr hs
    rw [splitSepFuel_fuel sep hs rest.length ((c :: rest).drop sep.length).length _
      (by rw [List.length_drop, List.length_cons]; omega) le_rfl]
  · rw [if_neg hp, if_neg hp]
    rw [splitSep, if_neg (by simp [hse])]

theorem splitSep_nil (sep : Str) : splitSep sep [] = [[]] := by
  rw [splitSep]
  by_cases hse : sep.isEmpty
  · rw [if_pos hse]
  · rw [if_neg hse]
    rfl

theorem isPre_sepBar_false (c : Char) (l : Str)
    (hhead : ∀ x xs, l = x :: xs → x ≠ '|') :
    isPre sepBar (c :: l) = false := by
  show isPre (' ' :: '|' :: ' ' :: []) (c :: l) = false
  rw [isPre]
  cases l with
  | nil => simp [isPre]
  | cons x xs =>
    have hx : x ≠ '|' := hhead x xs rfl
    rw [isPre]
    have : ('|' == x) = false := by
      simp
      exact fun e => hx e.symm
    rw [this]
    simp

theorem splitSep_append_part : ∀ (p r : Str), '|' ∉ p →
    (∀ x xs, r = x :: xs → x ≠ '|') →
    ∀ h t, splitSep sepBar r = h :: t →
    splitSep sepBar (p ++ r) = (p ++ h) :: t := by
  intro p
  induction p with
  | nil =>
    intro r _ _ h t hr
    rw [List.nil_append, hr, List.nil_append]
  | cons c p' ih =>
    intro r hp hr h t hsplit
    rw [List.cons_append]
    rw [splitSep_cons sepBar (by decide) c (p' ++ r)]
    have hpre : isPre sepBar (c :: (p' ++ r)) = false := by
      apply isPre_sepBar_false c (p' ++ r)
      intro x xs hx
      cases p' with
      | nil =>
        rw [List.nil_append] at hx
        exact hr x xs hx
      | cons d p'' =>
        rw [List.cons_append] at hx
        injection hx with h1 _
        intro he
        apply hp
        have hd2 : d = '|' := h1.trans he
        rw [hd2]
        exact List.mem_cons_of_mem c (List.mem_cons_self _ p'')
    rw [if_neg (by simp [hpre])]
    have hp' : '|' ∉ p' := fun m => hp (List.mem_cons_of_mem c m)
    rw [ih r hp' hr h t hsplit]
    rfl

theorem splitSep_sep_start (x : Str) :
    splitSep sepBar (sepBar ++ x) = [] :: splitSep sepBar x := by
  show splitSep sepBar (' ' :: (('|' :: ' ' :: []) ++ x)) = _
  rw [splitSep_cons sepBar (by decide)]
  rw [if_pos (show isPre sepBar (' ' :: (('|' :: ' ' :: []) ++ x)) = true from
    isPre_append_self sepBar x)]
  congr 1

theorem intercalate_singleton (sep a : Str) : List.intercalate sep [a] = a := by
  simp [List.intercalate, List.intersperse]

theorem intercalate_cons_cons (sep a b : Str) (l : List Str) :
    List.intercalate sep (a :: b :: l) = a ++ sep ++ List.intercalate sep (b :: l) := by
  simp [List.intercalate, List.intersperse]

theorem splitSep_intercalate : ∀ (ls : List Str), ls ≠ [] → (∀ l ∈ ls, '|' ∉ l) →
    splitSep sepBar (List.intercalate sepBar ls) = ls := by
  intro ls
  induction ls with
  | nil => intro h _; exact absurd rfl h
  | cons l ls' ih =>
    intro _ hp
    cases ls' with
    | nil =>
      rw [intercalate_singleton]
      have hstep := splitSep_append_part l [] (hp l (List.mem_cons_self l []))
        (by intro x xs hx; simp at hx) [] [] (splitSep_nil sepBar)
      rw [List.append_nil] at hstep
      rw [hstep]
    | cons l2 ls'' =>
      rw [intercalate_cons_cons]
      have htail : splitSep sepBar (List.intercalate sepBar (l2 :: ls'')) = l2 :: ls'' :=
        ih (by simp) fun x hx => hp x (List.mem_cons_of_mem l hx)
      have hsep : splitSep sepBar (sepBar ++ List.intercalate sepBar (l2 :: ls'')) =
          [] :: l2 :: ls'' := by
        rw [splitSep_sep_start, htail]
      rw [List.append_assoc]
      have hstep := splitSep_append_part l (sepBar ++ List.intercalate sepBar (l2 :: ls''))
        (hp l (List.mem_cons_self l _))
        (by
          intro x xs hx
          have : sepBar ++ List.intercalate sepBar (l2 :: ls'') = ' ' :: _ := rfl
          rw [this] at hx
          injection hx with h1 _
          rw [← h1]
          decide)
        [] (l2 :: ls'') hsep
      rw [hstep, List.append_nil]

/-! ### The amended round trip -/

/- Side conditions under which a normalized item survives the encode/decode
round trip: a nonempty, already-trimmed description containing none of the
scanner trigger characters `(` and `@` nor the separator bar, an integral
positive quantity, and a canonically written non-negative price. -/
def C1Good (it : P1.NItem) : Prop :=
  it.name ≠ [] ∧ trim it.name = it.name ∧ '(' ∉ it.name ∧ '@' ∉ it.name ∧
  '|' ∉ it.name ∧ it.quantity.e = 0 ∧ 1 ≤ it.quantity.m ∧
  0 ≤ it.price.m ∧ JNum.canon it.price = true

instance (it : P1.NItem) : Decidable (C1Good it) := by
  unfold C1Good
  infer_instance

/- The encoder's per-line map written with an explicit running index. -/
def linesFrom : ℕ → List P1.NItem → List Str
  | _, [] => []
  | k, it :: rest => P1.lineOf k it :: linesFrom (k + 1) rest

/- What the fallback decoder recovers for each line, with the running index. -/
def decodedFrom : ℕ → List P1.NItem → List P1.TItem
  | _, [] => []
  | k, it :: rest =>
      ⟨strOf "Item " ++ natDigits k ++ strOf ": " ++ it.name,
        it.quantity, it.price⟩ :: decodedFrom (k + 1) rest

theorem mapIdx_linesFrom : ∀ (ns : List P1.NItem) (k : ℕ),
    ns.mapIdx (fun i it => P1.lineOf (i + k + 1) it) = linesFrom (k + 1) ns := by
  intro ns
  induction ns with
  | nil => intro k; rfl
  | cons a l ih =>
    intro k
    rw [linesFrom]
    simp only [List.mapIdx_cons, Nat.zero_add]
    have hf : (fun i (it : P1.NItem) => P1.lineOf (i + 1 + k + 1) it)
        = fun i it => P1.lineOf (i + (k + 1) + 1) it := by
      funext i it
      have h3 : i + 1 + k + 1 = i + (k + 1) + 1 := by omega
      rw [h3]
    rw [hf, ih (k + 1)]

theorem mapIdx_decodedFrom : ∀ (ns : List P1.NItem) (k : ℕ),
    ns.mapIdx (fun i it =>
        (⟨strOf "Item " ++ natDigits (i + k + 1) ++ strOf ": " ++ it.name,
          it.quantity, it.price⟩ : P1.TItem)) = decodedFrom (k + 1) ns := by
  intro ns
  induction ns with
  | nil => intro k; rfl
  | cons a l ih =>
    intro k
    rw [decodedFrom]
    simp only [List.mapIdx_cons, Nat.zero_add]
    have hf : (fun i (it : P1.NItem) =>
          (⟨strOf "Item " ++ natDigits (i + 1 + k + 1) ++ strOf ": " ++ it.name,
            it.quantity, it.price⟩ : P1.TItem))
        = fun i it =>
          (⟨strOf "Item " ++ natDigits (i + (k + 1) + 1) ++ strOf ": " ++ it.name,
            it.quantity, it.price⟩ : P1.TItem) := by
      funext i it
      have h3 : i + 1 + k + 1 = i + (k + 1) + 1 := by omega
      rw [h3]
    rw [hf, ih (k + 1)]

theorem lineOf_ne_nil (k : ℕ) (it : P1.NItem) : P1.lineOf k it ≠ [] := by
  intro h
  rw [P1.lineOf] at h
  exact absurd ((List.append_eq_nil.mp (List.append_eq_nil.mp h).1).2) (by decide)

theorem bar_not_mem_lineOf (k : ℕ) (it : P1.NItem) (hname : '|' ∉ it.name)
    (hq : 0 ≤ it.quantity.m) (hp : 0 ≤ it.price.m) : '|' ∉ P1.lineOf k it := by
  intro hmem
  rw [P1.lineOf] at hmem
  simp only [List.mem_append] at hmem
  rcases hmem with ((((((h | h) | h) | h) | h) | h) | h) | h
  · exact absurd h (by decide)
  · exact absurd (natDigits_all_digits k _ h) (by decide)
  · exact absurd h (by decide)
  · exact hname h
  · exact absurd h (by decide)
  · rcases numToStr_chars it.quantity hq _ h with h2 | h2
    · exact absurd h2 (by decide)
    · exact absurd h2 (by decide)
  · exact absurd h (by decide)
  · rcases numToStr_chars it.price hp _ h with h2 | h2
    · exact absurd h2 (by decide)
    · exact absurd h2 (by decide)

theorem linesFrom_facts : ∀ (ns : List P1.NItem) (k : ℕ), (∀ it ∈ ns, C1Good it) →
    ∀ l ∈ linesFrom k ns, l ≠ [] ∧ '|' ∉ l := by
  intro ns
  induction ns with
  | nil => intro k _ l hl; exact absurd hl (by simp [linesFrom])
  | cons a rest ih =>
    intro k hg l hl
    rw [linesFrom] at hl
    rcases List.mem_cons.mp hl with h | h
    · obtain ⟨_, _, _, _, h5, _, h7, h8, _⟩ := hg a (List.mem_cons_self a rest)
      subst h
      exact ⟨lineOf_ne_nil k a, bar_not_mem_lineOf k a h5 (by omega) h8⟩
    · exact ih (k + 1) (fun it hit => hg it (List.mem_cons_of_mem a hit)) l h

theorem linesFrom_map_decode : ∀ (ns : List P1.NItem) (k : ℕ),
    (∀ it ∈ ns, C1Good it) →
    (linesFrom k ns).map P1.parseCartLine = decodedFrom k ns := by
  intro ns
  induction ns with
  | nil => intro k _; rfl
  | cons a rest ih =>
    intro k hg
    rw [linesFrom, decodedFrom, List.map_cons]
    obtain ⟨h1, h2, h3, h4, _, h6, h7, h8, h9⟩ := hg a (List.mem_cons_self a rest)
    rw [parseCartLine_lineOf k a h1 h2 h3 h4 h6 h7 h8 h9]
    rw [ih (k + 1) (fun it hit => hg it (List.mem_cons_of_mem a hit))]

theorem c1_roundtrip_core (ns : List P1.NItem) (hg : ∀ it ∈ ns, C1Good it) :
    P1.itemsArrayOfString (P1.cartItemsForMetadata ns) =
      ns.mapIdx fun i it =>
        (⟨strOf "Item " ++ natDigits (i + 1) ++ strOf ": " ++ it.name,
          it.quantity, it.price⟩ : P1.TItem) := by
  cases ns with
  | nil => rfl
  | cons a rest =>
    have hlines : (a :: rest).mapIdx (fun i it => P1.lineOf (i + 1) it)
        = linesFrom 1 (a :: rest) := by
      have h := mapIdx_linesFrom (a :: rest) 0
      simp only [Nat.add_zero] at h
      exact h
    have hmeta : P1.cartItemsForMetadata (a :: rest)
        = List.intercalate sepBar (linesFrom 1 (a :: rest)) := by
      rw [P1.cartItemsForMetadata, hlines]
      rfl
    have hfacts := linesFrom_facts (a :: rest) 1 hg
    have hne : linesFrom 1 (a :: rest) ≠ [] := by
      rw [linesFrom]
      exact List.cons_ne_nil _ _
    have hsplit : splitSep sepBar (List.intercalate sepBar (linesFrom 1 (a :: rest)))
        = linesFrom 1 (a :: rest) :=
      splitSep_intercalate (linesFrom 1 (a :: rest)) hne (fun l hl => (hfacts l hl).2)
    have hfilter : (linesFrom 1 (a :: rest)).filter (fun l => !l.isEmpty)
        = linesFrom 1 (a :: rest) := by
      rw [List.filter_eq_self]
      intro l hl
      have := (hfacts l hl).1
      cases l with
      | nil => exact absurd rfl this
      | cons c cs => rfl
    rw [hmeta, P1.itemsArrayOfString]
    rw [show strOf " | " = sepBar from rfl]
    rw [hsplit, hfilter]
    rw [linesFrom_map_decode (a :: rest) 1 hg]
    have h := mapIdx_decodedFrom (a :: rest) 0
    simp only [Nat.add_zero] at h
    rw [← h]

/-- C1 (amended): the webhook's fallback decoder is a one-sided inverse of
the `/pay` metadata encoder up to the position label: whenever every
normalized item has a nonempty, trimmed description free of the characters
`(`, `@` and `|`, an integral positive quantity, and a canonically written
non-negative price, decoding `cartItemsForMetadata` recovers, for the i-th
item (1-based), exactly the name `"Item i: " ++ description` together with
the original quantity and the original price. (The bare description is not
recovered: the `"Item i: "` prefix survives, as the counterexample shows.) -/
theorem c1_roundtrip_amended (items : List JObj)
    (hg : ∀ it ∈ P1.normalizeCart items, C1Good it) :
    P1.itemsArrayOfString (P1.cartItemsForMetadata (P1.normalizeCart items)) =
      (P1.normalizeCart items).mapIdx fun i it =>
        (⟨strOf "Item " ++ natDigits (i + 1) ++ strOf ": " ++ it.name,
          it.quantity, it.price⟩ : P1.TItem) :=
  c1_roundtrip_core (P1.normalizeCart items) hg

theorem c1_roundtrip_amended_witness :
    (∀ it ∈ P1.normalizeCart [[(strOf "preset", JVal.vstr (strOf "Floral")),
        (strOf "quantity", JVal.vnum ⟨2, 0⟩),
        (strOf "price", JVal.vnum ⟨50, 0⟩)]], C1Good it) ∧
    P1.itemsArrayOfString (P1.cartItemsForMetadata
        (P1.normalizeCart [[(strOf "preset", JVal.vstr (strOf "Floral")),
          (strOf "quantity", JVal.vnum ⟨2, 0⟩),
          (strOf "price", JVal.vnum ⟨50, 0⟩)]])) =
      (P1.normalizeCart [[(strOf "preset", JVal.vstr (strOf "Floral")),
          (strOf "quantity", JVal.vnum ⟨2, 0⟩),
          (strOf "price", JVal.vnum ⟨50, 0⟩)]]).mapIdx fun i it =>
        (⟨strOf "Item " ++ natDigits (i + 1) ++ strOf ": " ++ it.name,
          it.quantity, it.price⟩ : P1.TItem) :=
  ⟨by decide, c1_roundtrip_amended _ (by decide)⟩
